import Mathlib

/-!
# Kernel dispatch and coordinate helpers of `src/operator/mxnet_op.h`

A shallow embedding of the header's functions and macros.

* A C `int` is an `Int`; every result stored in an `int` goes through
  `wrapInt32` (two's complement, 32 bits).
* `OP::Map(i, args...)` is a state transformer `Map : Int → σ → σ`, the state
  `σ` standing for everything the argument pack points to.
* Loops whose termination depends on machine arithmetic take a fuel argument
  and return `none` when it runs out.
* The host launch has two builds: without the OpenMP pragma the loop runs its
  iterations in index order; with it (`MXNET_USE_CUDA == 0`) the iterations run in
  an order the runtime chooses, which is a parameter (`schedule`).
-/

namespace mxnet_op

/-! ## Machine integers -/

/-- Largest value of a C `int`. -/
def INT_MAX : Int := 2147483647

/-- Value held by a 32-bit two's complement `int` after the exact result `x` is stored in it. -/
def wrapInt32 (x : Int) : Int := (x + 2147483648) % 4294967296 - 2147483648

/-! ## Host path: `Kernel<OP, cpu>::Launch` -/

/-- The loop `for (int i = ...; i < N; ++i) OP::Map(i, args...)` of the host path,
started at loop variable `i` in state `s`. -/
def Kernel_cpu_loop {σ : Type} (Map : Int → σ → σ) (N : Int) : Nat → Int → σ → Option σ
  | 0, _, _ => none
  | fuel + 1, i, s =>
    if i < N then Kernel_cpu_loop Map N fuel (wrapInt32 (i + 1)) (Map i s) else some s

/-- Host launch `Kernel<OP, cpu>::Launch(s, N, args...)` in the build without the OpenMP
pragma (`MXNET_USE_CUDA != 0`): the sequential loop from `i = 0`. The stream argument is
unused by the source and left out. -/
def Kernel_cpu_Launch {σ : Type} (Map : Int → σ → σ) (N : Int) (fuel : Nat) (s : σ) : Option σ :=
  Kernel_cpu_loop Map N fuel 0 s

/-- The operation that records the index it is called with. -/
def recordMap (i : Int) (visited : List Int) : List Int := visited ++ [i]

/-- Applying `Map` at each index of a list, in order. -/
def mapAll {σ : Type} (Map : Int → σ → σ) (idxs : List Int) (s : σ) : σ :=
  idxs.foldl (fun acc i => Map i acc) s

/-- The indices `0, 1, ..., N-1` as C ints. -/
def indexRange (N : Int) : List Int := (List.range N.toNat).map Int.ofNat

/-- Host launch `Kernel<OP, cpu>::Launch(s, N, args...)` in the build with
`#pragma omp parallel for` (`MXNET_USE_CUDA == 0`): the iterations are those the loop
`for (int i = 0; i < N; ++i)` generates, and the body runs once for each of them, in the
order `schedule` puts them in. The operation contract makes the invocations independent,
so each invocation of `Map` is taken as one step. -/
def Kernel_cpu_Launch_omp {σ : Type} (schedule : List Int → List Int) (Map : Int → σ → σ)
    (N : Int) (fuel : Nat) (s : σ) : Option σ :=
  (Kernel_cpu_loop recordMap N fuel 0 []).map (fun iters => mapAll Map (schedule iters) s)

/-- Host launch `Kernel<OP, cpu>::Launch(s, N, args...)` for either build: the value of
`MXNET_USE_CUDA` selects the loop with or without the OpenMP pragma
(`#if (MXNET_USE_CUDA == 0)`). -/
def Kernel_cpu_Launch_build {σ : Type} (MXNET_USE_CUDA : Int) (schedule : List Int → List Int)
    (Map : Int → σ → σ) (N : Int) (fuel : Nat) (s : σ) : Option σ :=
  if MXNET_USE_CUDA = 0 then Kernel_cpu_Launch_omp schedule Map N fuel s
  else Kernel_cpu_Launch Map N fuel s

/-- Two lists taken in turn, one element from each. -/
def interleave : List Int → List Int → List Int
  | [], bs => bs
  | a :: as, [] => a :: as
  | a :: as, b :: bs => a :: b :: interleave as bs

/-- A schedule the OpenMP runtime may choose: two threads, the first taking the first half
of the iterations and the second the rest, running in lockstep. -/
def twoThreadSchedule (iters : List Int) : List Int :=
  interleave (iters.take ((iters.length + 1) / 2)) (iters.drop ((iters.length + 1) / 2))

/-- The indices `a, a + step, ..., a + (k-1) * step`: what a loop that starts at `a` and
advances by `step` passes to `Map` in `k` iterations without overflow. -/
def strideIdx (a step : Int) (k : Nat) : List Int :=
  (List.range k).map (fun (j : Nat) => a + (j : Int) * step)

/-! ## Accelerator path: `cuda_get_num_blocks`, `mxnet_generic_kernel`, `Kernel<OP, gpu>::Launch`

`kMaxGridNum` and `kBaseThreadNum` come from `mshadow::cuda` and are parameters here; the
concrete statements below take `kBaseThreadNum = 256` and `kMaxGridNum = 65535`. -/

/-- The function `cuda_get_num_blocks(N)`:
`std::min(kMaxGridNum, (N + kBaseThreadNum - 1) / kBaseThreadNum)` in `int` arithmetic
(the sum, the difference and the truncating quotient are each an `int`). -/
def cuda_get_num_blocks (kMaxGridNum kBaseThreadNum N : Int) : Int :=
  min kMaxGridNum
    (wrapInt32 (Int.tdiv (wrapInt32 (wrapInt32 (N + kBaseThreadNum) - 1)) kBaseThreadNum))

/-- The grid-stride loop of `mxnet_generic_kernel`,
`for (int i = ...; i < N; i += hipBlockDim_x * hipGridDim_x) OP::Map(i, args...)`,
from loop variable `i` on; `step` is `hipBlockDim_x * hipGridDim_x`. -/
def mxnet_generic_kernel_loop {σ : Type} (Map : Int → σ → σ) (N step : Int) :
    Nat → Int → σ → Option σ
  | 0, _, _ => none
  | fuel + 1, i, s =>
    if i < N then mxnet_generic_kernel_loop Map N step fuel (wrapInt32 (i + step)) (Map i s)
    else some s

/-- One thread of `mxnet_generic_kernel<OP, Args...>(N, args...)`: the loop variable starts at
`hipBlockIdx_x * hipBlockDim_x + hipThreadIdx_x`, stored in an `int`. -/
def mxnet_generic_kernel {σ : Type} (Map : Int → σ → σ) (N : Int)
    (hipBlockIdx_x hipBlockDim_x hipThreadIdx_x hipGridDim_x : Nat) (fuel : Nat) (s : σ) :
    Option σ :=
  mxnet_generic_kernel_loop Map N ((hipBlockDim_x : Int) * (hipGridDim_x : Int)) fuel
    (wrapInt32 ((hipBlockIdx_x : Int) * (hipBlockDim_x : Int) + (hipThreadIdx_x : Int))) s

/-- One call of `hipLaunchKernelGGL`: the grid and block dimensions and the kernel's `N`. -/
structure LaunchCall where
  numBlocks : Int
  dimBlocks : Int
  N : Int
  deriving DecidableEq, Repr

/-- The threads of a grid, as (block index, thread index), block by block. -/
def gridThreads (numBlocks dimBlocks : Nat) : List (Nat × Nat) :=
  (List.range numBlocks).flatMap (fun b => (List.range dimBlocks).map (fun t => (b, t)))

/-- Modelled from the spec: the runtime's `hipLaunchKernelGGL`, which is not part of the
header. "Launch a grid of `numGroups * groupThreadCount` threads", each running the kernel
with its own block and thread index. The operation contract makes the invocations
independent, so the threads are run one after the other here, block by block; a grid
or block dimension that is not positive starts no thread. -/
def hipLaunchKernelGGL {σ : Type} (kernel : Nat → Nat → Nat → Nat → σ → Option σ)
    (numBlocks dimBlocks : Int) (s : σ) : Option σ :=
  (gridThreads numBlocks.toNat dimBlocks.toNat).foldlM
    (fun acc bt => kernel bt.1 dimBlocks.toNat bt.2 numBlocks.toNat acc) s

/-- The calls of `hipLaunchKernelGGL` that `Kernel<OP, gpu>::Launch(s, N, args...)` makes:
one, unconditionally, with `ngrid` blocks of `kBaseThreadNum` threads, where
`int ngrid = std::min(kMaxGridNum, (N + kBaseThreadNum - 1) / kBaseThreadNum)`. -/
def Kernel_gpu_Launch_calls (kMaxGridNum kBaseThreadNum N : Int) : List LaunchCall :=
  let ngrid := min kMaxGridNum
    (wrapInt32 (Int.tdiv (wrapInt32 (wrapInt32 (N + kBaseThreadNum) - 1)) kBaseThreadNum))
  [⟨ngrid, kBaseThreadNum, N⟩]

/-- Accelerator launch `Kernel<OP, gpu>::Launch(s, N, args...)`: the effect of its launch
calls on the state; every thread gets `fuel` loop steps. -/
def Kernel_gpu_Launch {σ : Type} (kMaxGridNum kBaseThreadNum : Int) (Map : Int → σ → σ)
    (N : Int) (fuel : Nat) (s : σ) : Option σ :=
  (Kernel_gpu_Launch_calls kMaxGridNum kBaseThreadNum N).foldlM
    (fun acc c =>
      hipLaunchKernelGGL (fun b bd t gd => mxnet_generic_kernel Map c.N b bd t gd fuel)
        c.numBlocks c.dimBlocks acc) s

/-- Number of iterations of the grid-stride loop that starts at `g` and advances by `step`:
the least `k` with `g + k * step ≥ N`. -/
def threadIters (N step g : Int) : Nat := ((N - g + step - 1) / step).toNat

/-- The indices the threads of a grid pass to `Map` when no loop variable overflows, thread
by thread in the order of `gridThreads`. -/
def gridIdx (N : Int) (numBlocks dimBlocks : Nat) : List Int :=
  (gridThreads numBlocks dimBlocks).flatMap (fun bt =>
    strideIdx ((bt.1 : Int) * (dimBlocks : Int) + (bt.2 : Int))
      ((dimBlocks : Int) * (numBlocks : Int))
      (threadIters N ((dimBlocks : Int) * (numBlocks : Int))
        ((bt.1 : Int) * (dimBlocks : Int) + (bt.2 : Int))))

/-! ## Request kinds: `MXNET_ASSIGN_REQ_SWITCH`, `KERNEL_ASSIGN`

The enumerators `kNullOp`, `kWriteTo`, `kWriteInplace`, `kAddTo` are declared outside the
header; their values are parameters. A `switch` needs its case labels distinct. -/

/-- The values of the four request kinds the macros switch on. -/
structure OpReqType where
  kNullOp : Int
  kWriteTo : Int
  kWriteInplace : Int
  kAddTo : Int
  deriving DecidableEq, Repr

/-- The four enumerators are pairwise different, as the case labels of a `switch` are. -/
def OpReqType.Distinct (E : OpReqType) : Prop :=
  [E.kNullOp, E.kWriteTo, E.kWriteInplace, E.kAddTo].Nodup

instance (E : OpReqType) : Decidable E.Distinct := by
  unfold OpReqType.Distinct
  infer_instance

/-- A request value that is none of the four enumerators: it takes the `default` branch. -/
def OpReqType.Unrecognized (E : OpReqType) (req : Int) : Prop :=
  req ≠ E.kNullOp ∧ req ≠ E.kWriteTo ∧ req ≠ E.kWriteInplace ∧ req ≠ E.kAddTo

/-- Sample enumerator values: the kinds numbered in the order the header lists them. -/
def sampleOpReqType : OpReqType := ⟨0, 1, 2, 3⟩

/-- The macro `MXNET_ASSIGN_REQ_SWITCH(req, ReqType, ...)`: `body ReqType` is the statement
block `__VA_ARGS__` with the constant `ReqType` bound, as a state transformer. -/
def MXNET_ASSIGN_REQ_SWITCH {σ : Type} (E : OpReqType) (req : Int) (body : Int → σ → σ)
    (s : σ) : σ :=
  if req = E.kNullOp then s
  else if req = E.kWriteInplace ∨ req = E.kWriteTo then body E.kWriteTo s
  else if req = E.kAddTo then body E.kAddTo s
  else s

/-- A body that records the value `ReqType` is bound to each time it is executed. -/
def recordReqType (ReqType : Int) (log : List Int) : List Int := log ++ [ReqType]

/-- The macro `KERNEL_ASSIGN(out, req, val)`: the value of `out` after the statement. -/
def KERNEL_ASSIGN {α : Type} [Add α] (E : OpReqType) (out : α) (req : Int) (val : α) : α :=
  if req = E.kNullOp then out
  else if req = E.kWriteTo ∨ req = E.kWriteInplace then val
  else if req = E.kAddTo then out + val
  else out

/-! ## Coordinate helpers: `ravel`, `unravel`

A `Shape<ndim>` is the list of its `ndim` entries. The entry type `index_t` is declared
outside the header; entries are kept exact, and the `int` variables of the functions
(`ret`, `tmp`, `j`) wrap. -/

/-- One step of the loop of `ravel`:
`ret = ret * shape[i] + (shape[i] > coord[i]) * coord[i]`, stored in the `int` `ret`;
`cs` is the pair `(coord[i], shape[i])`. -/
def ravel_step (ret : Int) (cs : Int × Int) : Int :=
  wrapInt32 (ret * cs.2 + (if cs.2 > cs.1 then 1 else 0) * cs.1)

/-- The function `ravel(coord, shape)`: the loop over `i = 0, ..., ndim-1` from `ret = 0`. -/
def ravel (coord shape : List Int) : Int :=
  (List.zip coord shape).foldl ravel_step 0

/-- The loop of `unravel` from `j` on, over the shape entries from the last dimension to the
first; the components come out in the same order. Each step is
`int tmp = j / shape[i]; ret[i] = j - tmp*shape[i]; j = tmp;`, and a zero `shape[i]`
is a division by zero. -/
def unravel_loop : List Int → Int → Option (List Int)
  | [], _ => some []
  | sh :: rest, j =>
    if sh = 0 then none
    else
      (unravel_loop rest (wrapInt32 (Int.tdiv j sh))).map
        (fun r => (j - wrapInt32 (Int.tdiv j sh) * sh) :: r)

/-- The function `unravel(idx, shape)`: the loop runs over `i = ndim-1, ..., 0` from `j = idx`. -/
def unravel (idx : Int) (shape : List Int) : Option (List Int) :=
  (unravel_loop shape.reverse idx).map List.reverse

/-- The coordinate with every component that is not below its shape entry replaced by `0`. -/
def collapseCoord (coord shape : List Int) : List Int :=
  List.zipWith (fun c sh => if c < sh then c else 0) coord shape

/-- A coordinate within a shape: same rank, and `0 ≤ coord[i] < shape[i]` for all `i`. -/
def InShape (coord shape : List Int) : Prop :=
  coord.length = shape.length ∧ ∀ cs ∈ List.zip coord shape, 0 ≤ cs.1 ∧ cs.1 < cs.2

instance (coord shape : List Int) : Decidable (InShape coord shape) := by
  unfold InShape
  infer_instance

/-- The loop of `ravel` read from the last dimension back: `ravel` of the reversed lists. -/
def ravel_rev (rcoord rshape : List Int) : Int :=
  (List.zip rcoord rshape).foldr (fun cs ret => ravel_step ret cs) 0

/-! ## Coordinate helpers: `dot`, `unravel_dot`, `calc_stride`

The `int` accumulator `ret` wraps. In `calc_stride` the running product `cumprod` is an
`index_t`; what storing an exact value in an `index_t` does is the parameter
`wrap_index_t`. -/

/-- One step of the loop of `dot`: `ret += coord[i] * stride[i]`, stored in the `int` `ret`;
`cs` is the pair `(coord[i], stride[i])`. -/
def dot_step (ret : Int) (cs : Int × Int) : Int := wrapInt32 (ret + cs.1 * cs.2)

/-- The function `dot(coord, stride)`: the loop over `i = 0, ..., ndim-1` from `ret = 0`. -/
def dot (coord stride : List Int) : Int :=
  (List.zip coord stride).foldl dot_step 0

/-- The loop of `unravel_dot` from `j` and `ret` on, over the pairs `(shape[i], stride[i])`
from the last dimension to the first. Each step is
`int tmp = j / shape[i]; ret += (j - tmp*shape[i])*stride[i]; j = tmp;`, and a zero
`shape[i]` is a division by zero. -/
def unravel_dot_loop : List (Int × Int) → Int → Int → Option Int
  | [], _, ret => some ret
  | p :: rest, j, ret =>
    if p.1 = 0 then none
    else
      unravel_dot_loop rest (wrapInt32 (Int.tdiv j p.1))
        (wrapInt32 (ret + (j - wrapInt32 (Int.tdiv j p.1) * p.1) * p.2))

/-- The function `unravel_dot(idx, shape, stride)`: the loop runs over `i = ndim-1, ..., 0`
from `j = idx` and `ret = 0`. -/
def unravel_dot (idx : Int) (shape stride : List Int) : Option Int :=
  unravel_dot_loop (List.zip shape stride).reverse idx 0

/-- The loop of `calc_stride` from `cumprod` on, over the shape entries from the last
dimension to the first; the strides come out in the same order. Each step is
`stride[i] = (shape[i] > 1) ? cumprod : 0; cumprod *= shape[i];`. -/
def calc_stride_loop (wrap_index_t : Int → Int) : List Int → Int → List Int
  | [], _ => []
  | sh :: rest, cumprod =>
    (if sh > 1 then cumprod else 0) ::
      calc_stride_loop wrap_index_t rest (wrap_index_t (cumprod * sh))

/-- The function `calc_stride(shape)`: the loop runs over `i = ndim-1, ..., 0` from
`cumprod = 1`. -/
def calc_stride (wrap_index_t : Int → Int) (shape : List Int) : List Int :=
  (calc_stride_loop wrap_index_t shape.reverse 1).reverse

/-- An unsigned 32-bit `index_t`: one possible `wrap_index_t`. -/
def wrapUInt32 (x : Int) : Int := x % 4294967296

/-! ## The `fill` operation -/

/-- The operation `fill::Map(i, out, val)`: `out[i] = val`. The state is the buffer `out`
points to, or `none` once a write has fallen outside the buffer. -/
def fill_Map {α : Type} (val : α) (i : Int) (out : Option (List α)) : Option (List α) :=
  out.bind (fun buf => if 0 ≤ i ∧ i < (buf.length : Int) then some (buf.set i.toNat val) else none)

/-! ## Reference notions the statements compare the code with -/

/-- The row-major weights of a shape: at position `i` the product of `shape[j]` over `j > i`. -/
def rowMajorWeights : List Int → List Int
  | [] => []
  | _ :: rest => rest.prod :: rowMajorWeights rest

/-- The exact inner product: the sum of `coord[i] * weight[i]`. -/
def weightedSum (coord weight : List Int) : Int :=
  ((List.zip coord weight).map (fun cw => cw.1 * cw.2)).sum

/-- The stride rule in words: at position `i` the product of `shape[j]` over `j > i` when
`shape[i] > 1`, and `0` when `shape[i] ≤ 1`. -/
def strideRule : List Int → List Int
  | [] => []
  | sh :: rest => (if sh > 1 then rest.prod else 0) :: strideRule rest

/-- The mixed-radix digits of `idx` for a shape, most significant dimension first: at
position `i` the quotient of `idx` by the product of the later dimensions, modulo
`shape[i]`. -/
def mixedRadixDigits (idx : Int) : List Int → List Int
  | [] => []
  | sh :: rest => (idx / rest.prod) % sh :: mixedRadixDigits idx rest

/-- A coordinate that is within its shape except along broadcast dimensions: same rank,
every dimension at least 1, every component non-negative, and for each `i` either
`coord[i] < shape[i]` or `shape[i] == 1`. -/
def BroadcastCoord (coord shape : List Int) : Prop :=
  coord.length = shape.length ∧
    ∀ cs ∈ List.zip coord shape, 0 ≤ cs.1 ∧ 1 ≤ cs.2 ∧ (cs.1 < cs.2 ∨ cs.2 = 1)

instance (coord shape : List Int) : Decidable (BroadcastCoord coord shape) := by
  unfold BroadcastCoord
  infer_instance

/-! ## Lemmas on machine integers -/

theorem wrapInt32_eq_self {x : Int} (h1 : -2147483648 ≤ x) (h2 : x < 2147483648) :
    wrapInt32 x = x := by
  unfold wrapInt32
  omega

theorem mapAll_append {σ : Type} (Map : Int → σ → σ) (l1 l2 : List Int) (s : σ) :
    mapAll Map (l1 ++ l2) s = mapAll Map l2 (mapAll Map l1 s) := by
  simp [mapAll, List.foldl_append]

theorem mapAll_recordMap (idxs visited : List Int) :
    mapAll recordMap idxs visited = visited ++ idxs := by
  induction idxs generalizing visited with
  | nil => simp [mapAll]
  | cons a t ih =>
    have h : mapAll recordMap (a :: t) visited = mapAll recordMap t (recordMap a visited) := rfl
    rw [h, ih]
    simp [recordMap]

theorem strideIdx_succ (a step : Int) (k : Nat) :
    strideIdx a step (k + 1) = a :: strideIdx (a + step) step k := by
  unfold strideIdx
  rw [List.range_succ_eq_map]
  simp only [List.map_cons, List.map_map]
  congr 1
  · simp
  · apply List.map_congr_left
    intro j _
    simp only [Function.comp, Nat.succ_eq_add_one]
    push_cast
    ring

theorem strideIdx_one_zero (N : Int) : strideIdx 0 1 N.toNat = indexRange N := by
  unfold strideIdx indexRange
  apply List.map_congr_left
  intro j _
  simp

theorem mem_strideIdx {a step x : Int} {k : Nat} :
    x ∈ strideIdx a step k ↔ ∃ j : Nat, j < k ∧ x = a + (j : Int) * step := by
  unfold strideIdx
  simp only [List.mem_map, List.mem_range]
  constructor
  · rintro ⟨j, hj, rfl⟩
    exact ⟨j, hj, rfl⟩
  · rintro ⟨j, hj, rfl⟩
    exact ⟨j, hj, rfl⟩

theorem mem_indexRange {N x : Int} : x ∈ indexRange N ↔ 0 ≤ x ∧ x < N := by
  unfold indexRange
  simp only [List.mem_map, List.mem_range]
  constructor
  · rintro ⟨n, hn, rfl⟩
    have : ((n : Nat) : Int) = Int.ofNat n := rfl
    constructor
    · exact Int.ofNat_nonneg n
    · show (n : Int) < N
      omega
  · rintro ⟨h0, h1⟩
    refine ⟨x.toNat, by omega, ?_⟩
    show ((x.toNat : Nat) : Int) = x
    omega

/-- While the loop condition holds and the loop variable does not overflow, the grid-stride
loop runs on: it cannot finish within `K` steps of fuel. -/
theorem mxnet_generic_kernel_loop_short {σ : Type} (Map : Int → σ → σ) (N step : Int) :
    ∀ (K : Nat) (fuel : Nat) (i : Int) (s : σ),
      (∀ k : Nat, k < K → i + (k : Int) * step < N ∧
        -2147483648 ≤ i + ((k : Int) + 1) * step ∧ i + ((k : Int) + 1) * step < 2147483648) →
      fuel ≤ K → mxnet_generic_kernel_loop Map N step fuel i s = none := by
  intro K
  induction K with
  | zero =>
    intro fuel i s _ hf
    obtain rfl : fuel = 0 := by omega
    rfl
  | succ K ih =>
    intro fuel i s h hf
    cases fuel with
    | zero => rfl
    | succ f =>
      have h0 := h 0 (by omega)
      simp only [Nat.cast_zero, zero_mul, add_zero, zero_add, one_mul] at h0
      have hw : wrapInt32 (i + step) = i + step := wrapInt32_eq_self h0.2.1 h0.2.2
      simp only [mxnet_generic_kernel_loop, h0.1, if_true, hw]
      apply ih f (i + step) (Map i s) _ (by omega)
      intro k hk
      have hk1 := h (k + 1) (by omega)
      push_cast at hk1
      refine ⟨?_, ?_, ?_⟩ <;> linarith [hk1.1, hk1.2.1, hk1.2.2]

/-- While the loop condition holds and the loop variable does not overflow, `K` steps of the
grid-stride loop apply `Map` at `i, i + step, ..., i + (K-1) * step`. -/
theorem mxnet_generic_kernel_loop_unroll {σ : Type} (Map : Int → σ → σ) (N step : Int) :
    ∀ (K : Nat) (fuel : Nat) (i : Int) (s : σ),
      (∀ k : Nat, k < K → i + (k : Int) * step < N ∧
        -2147483648 ≤ i + ((k : Int) + 1) * step ∧ i + ((k : Int) + 1) * step < 2147483648) →
      mxnet_generic_kernel_loop Map N step (K + fuel) i s =
        mxnet_generic_kernel_loop Map N step fuel (i + (K : Int) * step)
          (mapAll Map (strideIdx i step K) s) := by
  intro K
  induction K with
  | zero =>
    intro fuel i s _
    simp [strideIdx, mapAll]
  | succ K ih =>
    intro fuel i s h
    have h0 := h 0 (by omega)
    simp only [Nat.cast_zero, zero_mul, add_zero, zero_add, one_mul] at h0
    have hw : wrapInt32 (i + step) = i + step := wrapInt32_eq_self h0.2.1 h0.2.2
    have hfuel : K + 1 + fuel = (K + fuel) + 1 := by omega
    rw [hfuel]
    simp only [mxnet_generic_kernel_loop, h0.1, if_true, hw]
    rw [ih fuel (i + step) (Map i s)]
    · rw [strideIdx_succ]
      have e : i + step + (K : Int) * step = i + ((K + 1 : Nat) : Int) * step := by
        push_cast; ring
      rw [e]
      rfl
    · intro k hk
      have hk1 := h (k + 1) (by omega)
      push_cast at hk1
      refine ⟨?_, ?_, ?_⟩ <;> linarith [hk1.1, hk1.2.1, hk1.2.2]

/-- The host loop is the grid-stride loop with step one. -/
theorem Kernel_cpu_loop_eq {σ : Type} (Map : Int → σ → σ) (N : Int) :
    ∀ (fuel : Nat) (i : Int) (s : σ),
      Kernel_cpu_loop Map N fuel i s = mxnet_generic_kernel_loop Map N 1 fuel i s := by
  intro fuel
  induction fuel with
  | zero => intro i s; rfl
  | succ f ih =>
    intro i s
    simp only [Kernel_cpu_loop, mxnet_generic_kernel_loop]
    rw [ih]

theorem Kernel_cpu_Launch_eq {σ : Type} (Map : Int → σ → σ) (N : Int) (fuel : Nat) (s : σ)
    (h0 : 0 ≤ N) (hN : N ≤ INT_MAX) (hf : N.toNat < fuel) :
    Kernel_cpu_Launch Map N fuel s = some (mapAll Map (indexRange N) s) := by
  unfold Kernel_cpu_Launch
  rw [Kernel_cpu_loop_eq]
  obtain ⟨f, rfl⟩ : ∃ f, fuel = N.toNat + (f + 1) := ⟨fuel - N.toNat - 1, by omega⟩
  unfold INT_MAX at hN
  rw [mxnet_generic_kernel_loop_unroll Map N 1 N.toNat (f + 1) 0 s]
  · have hlast : ¬ (0 + (N.toNat : Int) * 1 < N) := by omega
    simp only [mxnet_generic_kernel_loop, hlast, if_false]
    rw [strideIdx_one_zero]
  · intro k hk
    omega

theorem interleave_perm : ∀ (as bs : List Int), (interleave as bs).Perm (as ++ bs) := by
  intro as
  induction as with
  | nil => intro bs; simp [interleave]
  | cons a as ih =>
    intro bs
    cases bs with
    | nil => simp [interleave]
    | cons b bs =>
      simp only [interleave, List.cons_append]
      exact List.Perm.cons a ((List.Perm.cons b (ih bs)).trans List.perm_middle.symm)

theorem twoThreadSchedule_perm (iters : List Int) : (twoThreadSchedule iters).Perm iters := by
  unfold twoThreadSchedule
  have h := interleave_perm (iters.take ((iters.length + 1) / 2))
    (iters.drop ((iters.length + 1) / 2))
  rwa [List.take_append_drop] at h

/-- The OpenMP build applies `Map` along the scheduled order of the indices `0, ..., N-1`. -/
theorem Kernel_cpu_Launch_omp_eq {σ : Type} (schedule : List Int → List Int)
    (Map : Int → σ → σ) (N : Int) (fuel : Nat) (s : σ)
    (h0 : 0 ≤ N) (hN : N ≤ INT_MAX) (hf : N.toNat < fuel) :
    Kernel_cpu_Launch_omp schedule Map N fuel s =
      some (mapAll Map (schedule (indexRange N)) s) := by
  unfold Kernel_cpu_Launch_omp
  have h := Kernel_cpu_Launch_eq recordMap N fuel [] h0 hN hf
  unfold Kernel_cpu_Launch at h
  rw [h, mapAll_recordMap]
  simp

/-! ## Lemmas on the grid size -/

theorem ceil_div_eq (N T : Int) (hT : 0 < T) : ⌈(N : ℚ) / (T : ℚ)⌉ = (N + T - 1) / T := by
  have hTq : (0 : ℚ) < (T : ℚ) := by exact_mod_cast hT
  have h1 : (N + T - 1) / T * T ≤ N + T - 1 := Int.ediv_mul_le _ (ne_of_gt hT)
  have h2 : N + T - 1 < ((N + T - 1) / T + 1) * T := Int.lt_ediv_add_one_mul_self _ hT
  rw [Int.ceil_eq_iff]
  constructor
  · rw [lt_div_iff₀ hTq]
    have : ((N + T - 1) / T - 1) * T < N := by nlinarith
    exact_mod_cast this
  · rw [div_le_iff₀ hTq]
    have : N ≤ (N + T - 1) / T * T := by nlinarith
    exact_mod_cast this

/-- Without overflow of `N + kBaseThreadNum - 1` the grid size is the clamped quotient. -/
theorem cuda_get_num_blocks_in_range (M T N : Int) (hT : 0 < T) (h0 : 0 ≤ N)
    (hov : N + T - 1 ≤ INT_MAX) :
    cuda_get_num_blocks M T N = min M ((N + T - 1) / T) := by
  unfold INT_MAX at hov
  unfold cuda_get_num_blocks
  have e1 : wrapInt32 (wrapInt32 (N + T) - 1) = N + T - 1 := by
    unfold wrapInt32
    omega
  have hq0 : 0 ≤ (N + T - 1) / T := Int.ediv_nonneg (by omega) (le_of_lt hT)
  have hq1 : (N + T - 1) / T ≤ N + T - 1 := Int.ediv_le_self _ (by omega)
  rw [e1, Int.tdiv_eq_ediv (by omega) (le_of_lt hT), wrapInt32_eq_self (by omega) (by omega)]

/-- Without overflow the grid size is `min(kMaxGridNum, ceil(N / kBaseThreadNum))`. -/
theorem cuda_get_num_blocks_eq_min_ceil (M T N : Int) (hT : 0 < T) (h0 : 0 ≤ N)
    (hov : N + T - 1 ≤ INT_MAX) :
    cuda_get_num_blocks M T N = min M ⌈(N : ℚ) / (T : ℚ)⌉ := by
  rw [cuda_get_num_blocks_in_range M T N hT h0 hov, ceil_div_eq N T hT]

/-- At `N = INT_MAX` the sum `N + kBaseThreadNum` overflows for every `kBaseThreadNum ≥ 2`:
the grid size is not positive, whereas `min(kMaxGridNum, ceil(N / kBaseThreadNum))` is. -/
theorem cuda_get_num_blocks_INT_MAX_nonpos (M T : Int) (hM : 0 < M) (hT : 2 ≤ T)
    (hT2 : T ≤ INT_MAX) :
    cuda_get_num_blocks M T INT_MAX ≤ 0 ∧ 0 < min M ⌈((INT_MAX : Int) : ℚ) / (T : ℚ)⌉ := by
  unfold INT_MAX at hT2
  constructor
  · unfold cuda_get_num_blocks INT_MAX
    have e1 : wrapInt32 (wrapInt32 (2147483647 + T) - 1) = T - 2147483650 := by
      unfold wrapInt32
      omega
    rw [e1]
    have hq : Int.tdiv (T - 2147483650) T ≤ 0 := by
      have h1 : T - 2147483650 = -(2147483650 - T) := by ring
      rw [h1, Int.neg_tdiv, Int.tdiv_eq_ediv (by omega) (by omega)]
      have : 0 ≤ (2147483650 - T) / T := Int.ediv_nonneg (by omega) (by omega)
      omega
    have hq2 : -2147483648 ≤ Int.tdiv (T - 2147483650) T := by
      have h1 : T - 2147483650 = -(2147483650 - T) := by ring
      rw [h1, Int.neg_tdiv, Int.tdiv_eq_ediv (by omega) (by omega)]
      have : (2147483650 - T) / T ≤ 2147483650 - T := Int.ediv_le_self _ (by omega)
      omega
    rw [wrapInt32_eq_self hq2 (by omega)]
    exact le_trans (min_le_right _ _) hq
  · rw [ceil_div_eq INT_MAX T (by omega)]
    unfold INT_MAX
    apply lt_min hM
    have : 1 ≤ (2147483647 + T - 1) / T := by
      rw [Int.le_ediv_iff_mul_le (by omega)]
      omega
    omega

theorem Kernel_gpu_Launch_calls_eq (M T N : Int) :
    Kernel_gpu_Launch_calls M T N = [⟨cuda_get_num_blocks M T N, T, N⟩] := rfl

/-! ## Lemmas on the grid-stride loop -/

theorem threadIters_spec (N step g : Int) (hs : 0 < step) (k : Nat) :
    k < threadIters N step g ↔ g + (k : Int) * step < N := by
  unfold threadIters
  have e : k < ((N - g + step - 1) / step).toNat ↔ (k : Int) + 1 ≤ (N - g + step - 1) / step := by
    omega
  rw [e, Int.le_ediv_iff_mul_le hs]
  constructor <;> intro h <;> linarith

theorem threadIters_le (N step g : Int) (hs : 0 < step) (hg : 0 ≤ g) :
    threadIters N step g ≤ N.toNat := by
  by_contra hc
  have hK : N.toNat < threadIters N step g := by omega
  obtain ⟨k, hk⟩ : ∃ k, threadIters N step g = k + 1 := ⟨threadIters N step g - 1, by omega⟩
  have h1 := (threadIters_spec N step g hs k).1 (by omega)
  have h2 : (N.toNat : Int) ≤ (k : Int) := by omega
  have h3 : (k : Int) ≤ (k : Int) * step := by
    have : (0 : Int) ≤ (k : Int) := Int.ofNat_nonneg k
    nlinarith
  omega

/-- A thread whose loop variable cannot overflow finishes, having applied `Map` along its
stride. -/
theorem mxnet_generic_kernel_loop_run {σ : Type} (Map : Int → σ → σ) (N step g : Int)
    (fuel : Nat) (s : σ) (hs : 0 < step) (hg : 0 ≤ g) (hov : N + step ≤ 2147483648)
    (hf : threadIters N step g < fuel) :
    mxnet_generic_kernel_loop Map N step fuel g s =
      some (mapAll Map (strideIdx g step (threadIters N step g)) s) := by
  obtain ⟨f, rfl⟩ : ∃ f, fuel = threadIters N step g + (f + 1) :=
    ⟨fuel - threadIters N step g - 1, by omega⟩
  rw [mxnet_generic_kernel_loop_unroll Map N step (threadIters N step g) (f + 1) g s]
  · have hlast : ¬ (g + (threadIters N step g : Int) * step < N) := by
      rw [← threadIters_spec N step g hs]
      omega
    simp only [mxnet_generic_kernel_loop, hlast, if_false]
  · intro k hk
    have h1 := (threadIters_spec N step g hs k).2
    have h2 : g + (k : Int) * step < N := (threadIters_spec N step g hs k).1 hk
    have h3 : (0 : Int) ≤ (k : Int) * step :=
      mul_nonneg (Int.ofNat_nonneg k) (le_of_lt hs)
    refine ⟨h2, ?_, ?_⟩ <;> nlinarith

/-- Running threads one after the other, each of which applies `Map` along a list of
indices, applies `Map` along the concatenation of the lists. -/
theorem foldlM_mapAll {σ α : Type} (Map : Int → σ → σ) (run : σ → α → Option σ)
    (idx : α → List Int) :
    ∀ (l : List α) (s : σ), (∀ a ∈ l, ∀ t : σ, run t a = some (mapAll Map (idx a) t)) →
      l.foldlM run s = some (mapAll Map (l.flatMap idx) s) := by
  intro l
  induction l with
  | nil => intro s _; simp [mapAll]
  | cons a l ih =>
    intro s h
    rw [List.foldlM_cons, h a (List.mem_cons_self a l) s]
    simp only [Option.bind_eq_bind, Option.some_bind, List.flatMap_cons, mapAll_append]
    exact ih _ (fun b hb t => h b (List.mem_cons_of_mem a hb) t)

theorem mem_gridThreads {G B : Nat} {bt : Nat × Nat} :
    bt ∈ gridThreads G B ↔ bt.1 < G ∧ bt.2 < B := by
  unfold gridThreads
  simp only [List.mem_flatMap, List.mem_range, List.mem_map]
  constructor
  · rintro ⟨b, hb, t, ht, rfl⟩
    exact ⟨hb, ht⟩
  · rintro ⟨hb, ht⟩
    exact ⟨bt.1, hb, bt.2, ht, rfl⟩

/-- The global thread ids `b * B + t` of a grid, in launch order, are `0, 1, ..., G * B - 1`. -/
theorem gridThreads_map_id (G B : Nat) :
    (gridThreads G B).map (fun bt => bt.1 * B + bt.2) = List.range (G * B) := by
  induction G with
  | zero => simp [gridThreads]
  | succ G ih =>
    have e : gridThreads (G + 1) B = gridThreads G B ++ (List.range B).map (fun t => (G, t)) := by
      unfold gridThreads
      rw [List.range_succ, List.flatMap_append]
      simp
    rw [e, List.map_append, ih, Nat.succ_mul, List.range_add, List.map_map]
    rfl

theorem strideIdx_nodup (a step : Int) (k : Nat) (hs : 0 < step) :
    (strideIdx a step k).Nodup := by
  unfold strideIdx
  apply List.Nodup.map _ (List.nodup_range k)
  intro j1 j2 h
  dsimp only at h
  have h1 : (j1 : Int) * step = (j2 : Int) * step := by linarith
  have h2 : (j1 : Int) = (j2 : Int) := mul_right_cancel₀ (ne_of_gt hs) h1
  exact_mod_cast h2

theorem indexRange_nodup (N : Int) : (indexRange N).Nodup := by
  unfold indexRange
  apply List.Nodup.map _ (List.nodup_range _)
  intro a b h
  exact Int.ofNat.inj h

/-- Threads `0, ..., n-1` striding by `n` visit the indices below `N` once each. -/
theorem stride_cover_perm (N : Int) (n : Nat) (hn : 0 < N → 0 < n) :
    ((List.range n).flatMap
      (fun g => strideIdx (g : Int) (n : Int) (threadIters N (n : Int) (g : Int)))).Perm
      (indexRange N) := by
  rcases Nat.eq_zero_or_pos n with hz | hpos
  · subst hz
    have hN : N.toNat = 0 := by
      by_contra hc
      have := hn (by omega)
      omega
    simp [indexRange, hN]
  · have hS : (0 : Int) < (n : Int) := by exact_mod_cast hpos
    apply (List.perm_ext_iff_of_nodup _ (indexRange_nodup N)).2
    · intro x
      rw [List.mem_flatMap, mem_indexRange]
      constructor
      · rintro ⟨g, _, hx⟩
        obtain ⟨k, hk, rfl⟩ := mem_strideIdx.1 hx
        refine ⟨?_, (threadIters_spec N n g hS k).1 hk⟩
        have h1 : (0 : Int) ≤ (k : Int) * (n : Int) :=
          mul_nonneg (Int.ofNat_nonneg k) (le_of_lt hS)
        have h2 : (0 : Int) ≤ (g : Int) := Int.ofNat_nonneg g
        linarith
      · rintro ⟨hx0, hxN⟩
        have hm0 : 0 ≤ x % (n : Int) := Int.emod_nonneg x (ne_of_gt hS)
        have hm1 : x % (n : Int) < (n : Int) := Int.emod_lt_of_pos x hS
        have hd0 : 0 ≤ x / (n : Int) := Int.ediv_nonneg hx0 (le_of_lt hS)
        have hsum : x % (n : Int) + (n : Int) * (x / (n : Int)) = x := Int.emod_add_ediv x n
        have hg : (((x % (n : Int)).toNat : Nat) : Int) = x % (n : Int) := Int.toNat_of_nonneg hm0
        have hk : (((x / (n : Int)).toNat : Nat) : Int) = x / (n : Int) := Int.toNat_of_nonneg hd0
        have hx : x = (((x % (n : Int)).toNat : Nat) : Int) +
            (((x / (n : Int)).toNat : Nat) : Int) * (n : Int) := by
          rw [hg, hk]; linarith
        refine ⟨(x % (n : Int)).toNat, ?_, ?_⟩
        · rw [List.mem_range]
          omega
        · apply mem_strideIdx.2
          refine ⟨(x / (n : Int)).toNat, ?_, hx⟩
          apply (threadIters_spec N n _ hS _).2
          rw [← hx]
          exact hxN
    · rw [List.nodup_flatMap]
      constructor
      · intro g _
        exact strideIdx_nodup _ _ _ hS
      · apply List.Pairwise.imp_of_mem _ (List.pairwise_lt_range n)
        intro a b ha hb hab x hxa hxb
        rw [List.mem_range] at ha hb
        obtain ⟨k1, _, h1⟩ := mem_strideIdx.1 hxa
        obtain ⟨k2, _, h2⟩ := mem_strideIdx.1 hxb
        have e1 : x % (n : Int) = (a : Int) := by
          rw [h1, Int.add_mul_emod_self]
          exact Int.emod_eq_of_lt (Int.ofNat_nonneg a) (by exact_mod_cast ha)
        have e2 : x % (n : Int) = (b : Int) := by
          rw [h2, Int.add_mul_emod_self]
          exact Int.emod_eq_of_lt (Int.ofNat_nonneg b) (by exact_mod_cast hb)
        have : (a : Int) = (b : Int) := by rw [← e1, e2]
        omega

theorem gridIdx_eq (N : Int) (G B : Nat) :
    gridIdx N G B = (List.range (G * B)).flatMap
      (fun g => strideIdx (g : Int) ((G * B : Nat) : Int)
        (threadIters N ((G * B : Nat) : Int) (g : Int))) := by
  rw [← gridThreads_map_id, List.flatMap_map]
  unfold gridIdx
  have e : ((B : Int) * (G : Int)) = ((G * B : Nat) : Int) := by push_cast; ring
  rw [e]
  congr 1

theorem gridIdx_perm (N : Int) (G B : Nat) (hn : 0 < N → 0 < G * B) :
    (gridIdx N G B).Perm (indexRange N) := by
  rw [gridIdx_eq]
  exact stride_cover_perm N (G * B) hn

/-- One launch whose loop variables cannot overflow applies `Map` along `gridIdx`. -/
theorem hipLaunchKernelGGL_run {σ : Type} (Map : Int → σ → σ) (N numBlocks dimBlocks : Int)
    (fuel : Nat) (s : σ) (h0 : 0 ≤ N) (hov : N + dimBlocks * numBlocks ≤ 2147483648)
    (hf : N.toNat < fuel) :
    hipLaunchKernelGGL (fun b bd t gd => mxnet_generic_kernel Map N b bd t gd fuel)
        numBlocks dimBlocks s =
      some (mapAll Map (gridIdx N numBlocks.toNat dimBlocks.toNat) s) := by
  unfold hipLaunchKernelGGL gridIdx
  apply foldlM_mapAll Map
  intro bt hbt t
  obtain ⟨hb, ht⟩ := mem_gridThreads.1 hbt
  have hG : ((numBlocks.toNat : Nat) : Int) = numBlocks := Int.toNat_of_nonneg (by omega)
  have hB : ((dimBlocks.toNat : Nat) : Int) = dimBlocks := Int.toNat_of_nonneg (by omega)
  have hb1 : ((bt.1 : Nat) : Int) + 1 ≤ numBlocks := by omega
  have ht1 : ((bt.2 : Nat) : Int) + 1 ≤ dimBlocks := by omega
  have hb0 : (0 : Int) ≤ (bt.1 : Int) := Int.ofNat_nonneg _
  have ht0 : (0 : Int) ≤ (bt.2 : Int) := Int.ofNat_nonneg _
  have hstep : 0 < dimBlocks * numBlocks := mul_pos (by omega) (by omega)
  have hg0 : 0 ≤ (bt.1 : Int) * dimBlocks + (bt.2 : Int) := by
    have : 0 ≤ (bt.1 : Int) * dimBlocks := mul_nonneg hb0 (by omega)
    omega
  have hg1 : (bt.1 : Int) * dimBlocks + (bt.2 : Int) < dimBlocks * numBlocks := by
    have : ((bt.1 : Int) + 1) * dimBlocks ≤ numBlocks * dimBlocks :=
      mul_le_mul_of_nonneg_right hb1 (by omega)
    nlinarith
  unfold mxnet_generic_kernel
  dsimp only
  rw [hG, hB, wrapInt32_eq_self (by omega) (by omega)]
  apply mxnet_generic_kernel_loop_run Map N _ _ fuel t hstep hg0 hov
  exact lt_of_le_of_lt (threadIters_le N _ _ hstep hg0) hf

/-- Whenever no loop variable can overflow, the accelerator launch finishes and has applied
`Map` once at each index below `N`, in the order of `gridIdx`. -/
theorem Kernel_gpu_Launch_in_range (M T N : Int) (hM : 0 < M) (hT : 0 < T)
    (hT2 : T ≤ INT_MAX) (h0 : 0 ≤ N)
    (hov : N + T * min M ((N + T - 1) / T) ≤ INT_MAX + 1) :
    ∃ idxs : List Int, idxs.Perm (indexRange N) ∧
      ∀ (σ : Type) (Map : Int → σ → σ) (fuel : Nat) (s : σ), N.toNat < fuel →
        Kernel_gpu_Launch M T Map N fuel s = some (mapAll Map idxs s) := by
  unfold INT_MAX at hT2 hov
  have hq : 0 < N → 1 ≤ (N + T - 1) / T := by
    intro hN
    rw [Int.le_ediv_iff_mul_le hT]
    omega
  have hq0 : 0 ≤ (N + T - 1) / T := Int.ediv_nonneg (by omega) (le_of_lt hT)
  have hmin0 : 0 ≤ min M ((N + T - 1) / T) := le_min (le_of_lt hM) hq0
  have hmin1 : 0 < N → 1 ≤ min M ((N + T - 1) / T) := fun hN => le_min (by omega) (hq hN)
  have hNT : N + T - 1 ≤ INT_MAX := by
    unfold INT_MAX
    rcases eq_or_lt_of_le h0 with hz | hpos
    · omega
    · have := hmin1 hpos
      nlinarith
  have hg : cuda_get_num_blocks M T N = min M ((N + T - 1) / T) :=
    cuda_get_num_blocks_in_range M T N hT h0 hNT
  refine ⟨gridIdx N (min M ((N + T - 1) / T)).toNat T.toNat, ?_, ?_⟩
  · apply gridIdx_perm
    intro hN
    have := hmin1 hN
    apply Nat.mul_pos <;> omega
  · intro σ Map fuel s hf
    unfold Kernel_gpu_Launch
    rw [Kernel_gpu_Launch_calls_eq, hg]
    simp only [List.foldlM_cons, List.foldlM_nil]
    rw [hipLaunchKernelGGL_run Map N _ T fuel s h0 (by omega) hf]
    rfl

/-- The recording operation only ever extends the list of visited indices. -/
theorem mxnet_generic_kernel_loop_recordMap_mono (N step : Int) :
    ∀ (fuel : Nat) (i : Int) (s tr : List Int),
      mxnet_generic_kernel_loop recordMap N step fuel i s = some tr → ∀ x ∈ s, x ∈ tr := by
  intro fuel
  induction fuel with
  | zero => intro i s tr h; simp [mxnet_generic_kernel_loop] at h
  | succ f ih =>
    intro i s tr h x hx
    simp only [mxnet_generic_kernel_loop] at h
    split at h
    · exact ih _ _ _ h x (by simp [recordMap, hx])
    · simp only [Option.some.injEq] at h
      rw [← h]
      exact hx

theorem foldlM_recordMap_mono {α : Type} (run : List Int → α → Option (List Int))
    (hrun : ∀ (a : α) (s tr : List Int), run s a = some tr → ∀ x ∈ s, x ∈ tr) :
    ∀ (l : List α) (s tr : List Int), l.foldlM run s = some tr → ∀ x ∈ s, x ∈ tr := by
  intro l
  induction l with
  | nil =>
    intro s tr h x hx
    simp only [List.foldlM_nil, Option.pure_def, Option.some.injEq] at h
    rw [← h]
    exact hx
  | cons a l ih =>
    intro s tr h x hx
    rw [List.foldlM_cons] at h
    obtain ⟨s1, h1, h2⟩ := Option.bind_eq_some.1 h
    exact ih s1 tr h2 x (hrun a s s1 h1 x hx)

theorem gridThreads_head (G B : Nat) (hG : 0 < G) (hB : 0 < B) :
    ∃ rest, gridThreads G B = (0, 0) :: rest := by
  obtain ⟨g, rfl⟩ : ∃ g, G = g + 1 := ⟨G - 1, by omega⟩
  obtain ⟨b, rfl⟩ : ∃ b, B = b + 1 := ⟨B - 1, by omega⟩
  unfold gridThreads
  rw [List.range_succ_eq_map, List.flatMap_cons, List.range_succ_eq_map, List.map_cons,
    List.cons_append]
  exact ⟨_, rfl⟩

/-- With `N = 2147483392`, 256 threads a block and 65535 blocks, thread 0 of block 0 passes
the index `-2130739456` to `Map` once its loop variable has overflowed. -/
theorem mxnet_generic_kernel_thread0_overflow (fuel : Nat) (tr : List Int)
    (h : mxnet_generic_kernel recordMap 2147483392 0 256 0 65535 fuel [] = some tr) :
    (-2130739456 : Int) ∈ tr := by
  unfold mxnet_generic_kernel at h
  have e0 : wrapInt32 (((0 : Nat) : Int) * ((256 : Nat) : Int) + ((0 : Nat) : Int)) = 0 := by
    decide
  have e1 : ((256 : Nat) : Int) * ((65535 : Nat) : Int) = 16776960 := by decide
  rw [e0, e1] at h
  have hcond : ∀ k : Nat, k < 128 → (0 : Int) + (k : Int) * 16776960 < 2147483392 ∧
      -2147483648 ≤ (0 : Int) + ((k : Int) + 1) * 16776960 ∧
      (0 : Int) + ((k : Int) + 1) * 16776960 < 2147483648 := by
    intro k hk
    omega
  rcases Nat.lt_or_ge 128 fuel with hlt | hge
  · obtain ⟨f, rfl⟩ : ∃ f, fuel = 128 + (f + 1) := ⟨fuel - 129, by omega⟩
    rw [mxnet_generic_kernel_loop_unroll recordMap _ _ 128 (f + 1) 0 [] hcond] at h
    have e2 : (0 : Int) + ((128 : Nat) : Int) * 16776960 = 2147450880 := by decide
    have e3 : wrapInt32 (2147450880 + 16776960) = -2130739456 := by decide
    rw [e2] at h
    simp only [mxnet_generic_kernel_loop] at h
    rw [if_pos (by decide), e3] at h
    cases f with
    | zero => simp [mxnet_generic_kernel_loop] at h
    | succ f =>
      simp only [mxnet_generic_kernel_loop] at h
      rw [if_pos (by decide)] at h
      exact mxnet_generic_kernel_loop_recordMap_mono _ _ _ _ _ _ h _ (by simp [recordMap])
  · rw [mxnet_generic_kernel_loop_short recordMap _ _ 128 fuel 0 [] hcond hge] at h
    simp at h

/-! ## Lemmas on `ravel` and `unravel` -/

theorem ravel_eq_ravel_rev (coord shape : List Int) (h : coord.length = shape.length) :
    ravel coord shape = ravel_rev coord.reverse shape.reverse := by
  unfold ravel ravel_rev List.zip
  rw [← List.reverse_zipWith h, List.foldr_reverse]

theorem ravel_rev_cons (c sh : Int) (rc rs : List Int) :
    ravel_rev (c :: rc) (sh :: rs) = ravel_step (ravel_rev rc rs) (c, sh) := rfl

theorem InShape_cons {c sh : Int} {rc rs : List Int} :
    InShape (c :: rc) (sh :: rs) ↔ (0 ≤ c ∧ c < sh) ∧ InShape rc rs := by
  unfold InShape
  simp only [List.length_cons, add_left_inj, List.zip_cons_cons, List.mem_cons, forall_eq_or_imp]
  tauto

theorem InShape_nil_left {rs : List Int} : InShape [] rs ↔ rs = [] := by
  unfold InShape
  cases rs <;> simp

theorem InShape_reverse {coord shape : List Int} (h : InShape coord shape) :
    InShape coord.reverse shape.reverse := by
  obtain ⟨hl, hb⟩ := h
  refine ⟨by simp [hl], ?_⟩
  intro cs hcs
  apply hb
  unfold List.zip at hcs ⊢
  rw [← List.reverse_zipWith hl] at hcs
  exact List.mem_reverse.1 hcs

/-- Decomposing `i` along the shape and folding the digits back gives `i`. -/
theorem unravel_loop_ravel_rev :
    ∀ (rs : List Int) (i : Int), (∀ d ∈ rs, 1 ≤ d) → 0 ≤ i → i < rs.prod → i < 2147483648 →
      ∃ d, unravel_loop rs i = some d ∧ d.length = rs.length ∧ ravel_rev d rs = i := by
  intro rs
  induction rs with
  | nil =>
    intro i _ h0 hi _
    simp only [List.prod_nil] at hi
    refine ⟨[], rfl, rfl, ?_⟩
    have : i = 0 := by omega
    rw [this]
    rfl
  | cons sh rest ih =>
    intro i hd h0 hi hmax
    have hsh : 1 ≤ sh := hd sh (List.mem_cons_self _ _)
    have hne : sh ≠ 0 := by omega
    have hq0 : 0 ≤ i / sh := Int.ediv_nonneg h0 (by omega)
    have hq1 : i / sh ≤ i := Int.ediv_le_self _ h0
    have htd : wrapInt32 (Int.tdiv i sh) = i / sh := by
      rw [Int.tdiv_eq_ediv h0 (by omega), wrapInt32_eq_self (by omega) (by omega)]
    have hqlt : i / sh < rest.prod := by
      apply Int.ediv_lt_of_lt_mul (by omega)
      rw [List.prod_cons] at hi
      linarith
    obtain ⟨d, hd1, hd2, hd3⟩ :=
      ih (i / sh) (fun x hx => hd x (List.mem_cons_of_mem _ hx)) hq0 hqlt (by omega)
    refine ⟨(i - i / sh * sh) :: d, ?_, by simp [hd2], ?_⟩
    · simp only [unravel_loop, hne, if_false, htd, hd1, Option.map_some']
    · rw [ravel_rev_cons, hd3]
      unfold ravel_step
      have hm0 : 0 ≤ i % sh := Int.emod_nonneg i hne
      have hm1 : i % sh < sh := Int.emod_lt_of_pos i (by omega)
      have hdm : i - i / sh * sh = i % sh := by
        have := Int.emod_add_ediv i sh
        linarith
      simp only [hdm]
      rw [if_pos (by omega)]
      have : i / sh * sh + 1 * (i % sh) = i := by
        have := Int.emod_add_ediv i sh
        linarith
      rw [this]
      exact wrapInt32_eq_self (by omega) (by omega)

/-- Within its shape, and with a shape product an `int` can count, `ravel` stays below the
product and does not overflow. -/
theorem ravel_rev_bounds :
    ∀ (rc rs : List Int), InShape rc rs → rs.prod ≤ 2147483648 →
      0 ≤ ravel_rev rc rs ∧ ravel_rev rc rs < rs.prod := by
  intro rc
  induction rc with
  | nil =>
    intro rs h _
    rw [InShape_nil_left.1 h]
    simp [ravel_rev]
  | cons c rc ih =>
    intro rs h hp
    cases rs with
    | nil => simp [InShape] at h
    | cons sh rs =>
      obtain ⟨⟨hc0, hc1⟩, hin⟩ := InShape_cons.1 h
      rw [List.prod_cons] at hp ⊢
      have hP : rs.prod ≤ 2147483648 := by
        rcases le_or_lt rs.prod 0 with hneg | hpos
        · omega
        · nlinarith
      obtain ⟨hr0, hr1⟩ := ih rs hin hP
      rw [ravel_rev_cons]
      unfold ravel_step
      dsimp only
      rw [if_pos (by omega)]
      have h1 : 0 ≤ ravel_rev rc rs * sh := mul_nonneg hr0 (by omega)
      have h2 : ravel_rev rc rs * sh + 1 * c < sh * rs.prod := by nlinarith
      rw [wrapInt32_eq_self (by omega) (by omega)]
      exact ⟨by omega, h2⟩

/-- Decomposing what `ravel` returns gives the coordinate back. -/
theorem unravel_loop_of_ravel_rev :
    ∀ (rc rs : List Int), InShape rc rs → rs.prod ≤ 2147483648 →
      unravel_loop rs (ravel_rev rc rs) = some rc := by
  intro rc
  induction rc with
  | nil =>
    intro rs h _
    rw [InShape_nil_left.1 h]
    rfl
  | cons c rc ih =>
    intro rs h hp
    cases rs with
    | nil => simp [InShape] at h
    | cons sh rs =>
      obtain ⟨⟨hc0, hc1⟩, hin⟩ := InShape_cons.1 h
      have hb := ravel_rev_bounds (c :: rc) (sh :: rs) h hp
      rw [List.prod_cons] at hp
      have hP : rs.prod ≤ 2147483648 := by
        rcases le_or_lt rs.prod 0 with hneg | hpos
        · omega
        · nlinarith
      obtain ⟨hr0, hr1⟩ := ravel_rev_bounds rc rs hin hP
      have hval : ravel_rev (c :: rc) (sh :: rs) = c + ravel_rev rc rs * sh := by
        rw [ravel_rev_cons]
        unfold ravel_step
        dsimp only
        rw [if_pos (by omega)]
        have h1 : 0 ≤ ravel_rev rc rs * sh := mul_nonneg hr0 (by omega)
        have h2 : ravel_rev rc rs * sh + 1 * c < sh * rs.prod := by nlinarith
        rw [wrapInt32_eq_self (by omega) (by omega)]
        ring
      have hne : sh ≠ 0 := by omega
      have hq : (c + ravel_rev rc rs * sh) / sh = ravel_rev rc rs := by
        rw [Int.add_mul_ediv_right _ _ hne, Int.ediv_eq_zero_of_lt hc0 hc1]
        simp
      have hnn : 0 ≤ c + ravel_rev rc rs * sh := by
        have := mul_nonneg hr0 (show (0 : Int) ≤ sh by omega)
        omega
      have htd : wrapInt32 (Int.tdiv (c + ravel_rev rc rs * sh) sh) = ravel_rev rc rs := by
        rw [Int.tdiv_eq_ediv hnn (by omega), hq, wrapInt32_eq_self (by omega) (by omega)]
      rw [hval]
      simp only [unravel_loop, hne, if_false, htd, ih rs hin hP, Option.map_some']
      congr 2
      ring

theorem ravel_collapseCoord_from (coord : List Int) :
    ∀ (shape : List Int) (ret : Int),
      (List.zip (collapseCoord coord shape) shape).foldl ravel_step ret =
        (List.zip coord shape).foldl ravel_step ret := by
  induction coord with
  | nil => intro shape ret; simp [collapseCoord]
  | cons c coord ih =>
    intro shape ret
    cases shape with
    | nil => simp [collapseCoord]
    | cons sh shape =>
      have hstep : ravel_step ret (if c < sh then c else 0, sh) = ravel_step ret (c, sh) := by
        unfold ravel_step
        by_cases hc : c < sh
        · simp [hc]
        · have : ¬ sh > c := hc
          simp [hc, this]
      have := ih shape (ravel_step ret (c, sh))
      unfold collapseCoord at this ⊢
      simp only [List.zipWith_cons_cons, List.zip_cons_cons, List.foldl_cons, hstep]
      exact this

/-! ## Lemmas on `dot` and `unravel_dot` -/

theorem wrapInt32_add_left (a b : Int) : wrapInt32 (wrapInt32 a + b) = wrapInt32 (a + b) := by
  unfold wrapInt32
  omega

theorem wrapInt32_zero : wrapInt32 0 = 0 := by decide

theorem wrapInt32_congr {x y : Int} :
    wrapInt32 x = wrapInt32 y ↔ x ≡ y [ZMOD 4294967296] := by
  unfold wrapInt32 Int.ModEq
  omega

theorem weightedSum_cons (c w : Int) (cs ws : List Int) :
    weightedSum (c :: cs) (w :: ws) = c * w + weightedSum cs ws := by
  simp [weightedSum]

theorem weightedSum_nil_left (ws : List Int) : weightedSum [] ws = 0 := by
  simp [weightedSum]

theorem weightedSum_nil_right (cs : List Int) : weightedSum cs [] = 0 := by
  simp [weightedSum]

theorem weightedSum_reverse (cs ws : List Int) (h : cs.length = ws.length) :
    weightedSum cs.reverse ws.reverse = weightedSum cs ws := by
  unfold weightedSum List.zip
  rw [← List.reverse_zipWith h, List.map_reverse, List.sum_reverse]

/-- The loop of `dot` adds the exact products up to 32-bit wrap-around. -/
theorem foldl_dot_step (l : List (Int × Int)) :
    ∀ r : Int, l.foldl dot_step (wrapInt32 r) =
      wrapInt32 (r + (l.map (fun cw => cw.1 * cw.2)).sum) := by
  induction l with
  | nil => intro r; simp
  | cons p l ih =>
    intro r
    simp only [List.foldl_cons, List.map_cons, List.sum_cons]
    have hstep : dot_step (wrapInt32 r) p = wrapInt32 (r + p.1 * p.2) := by
      unfold dot_step
      rw [wrapInt32_add_left]
    rw [hstep, ih]
    congr 1
    ring

theorem dot_eq_wrap (coord stride : List Int) :
    dot coord stride = wrapInt32 (weightedSum coord stride) := by
  unfold dot weightedSum
  have h := foldl_dot_step (List.zip coord stride) 0
  rw [wrapInt32_zero] at h
  rw [h]
  simp

theorem unravel_loop_length :
    ∀ (rs : List Int) (j : Int) (d : List Int), unravel_loop rs j = some d →
      d.length = rs.length := by
  intro rs
  induction rs with
  | nil =>
    intro j d h
    simp only [unravel_loop, Option.some.injEq] at h
    rw [← h]
  | cons sh rest ih =>
    intro j d h
    simp only [unravel_loop] at h
    split at h
    · simp at h
    · obtain ⟨r, hr, rfl⟩ := Option.map_eq_some'.1 h
      simp [ih _ _ hr]

/-- The fused loop computes what the loop of `unravel` followed by the sum of products
computes, and fails exactly when that loop fails. -/
theorem unravel_dot_loop_eq (ps : List (Int × Int)) :
    ∀ (j r : Int), unravel_dot_loop ps j (wrapInt32 r) =
      (unravel_loop (ps.map Prod.fst) j).map
        (fun d => wrapInt32 (r + weightedSum d (ps.map Prod.snd))) := by
  induction ps with
  | nil =>
    intro j r
    simp [unravel_dot_loop, unravel_loop, weightedSum_nil_left]
  | cons p ps ih =>
    intro j r
    simp only [unravel_dot_loop, unravel_loop, List.map_cons]
    by_cases h0 : p.1 = 0
    · simp [h0]
    · simp only [h0, if_false]
      rw [wrapInt32_add_left, ih, Option.map_map]
      congr 1
      funext d
      simp only [Function.comp, weightedSum_cons]
      congr 1
      ring

theorem calc_stride_loop_length (w : Int → Int) :
    ∀ (rs : List Int) (cum : Int), (calc_stride_loop w rs cum).length = rs.length := by
  intro rs
  induction rs with
  | nil => intro cum; rfl
  | cons sh rest ih => intro cum; simp [calc_stride_loop, ih]

theorem calc_stride_length (w : Int → Int) (shape : List Int) :
    (calc_stride w shape).length = shape.length := by
  simp [calc_stride, calc_stride_loop_length]

theorem unravel_dot_eq (idx : Int) (shape stride : List Int)
    (h : shape.length = stride.length) :
    unravel_dot idx shape stride = (unravel idx shape).map (fun c => dot c stride) := by
  unfold unravel_dot unravel
  have h1 : (List.zip shape stride).reverse.map Prod.fst = shape.reverse := by
    rw [List.map_reverse, List.map_fst_zip _ _ (le_of_eq h)]
  have h2 : (List.zip shape stride).reverse.map Prod.snd = stride.reverse := by
    rw [List.map_reverse, List.map_snd_zip _ _ (le_of_eq h.symm)]
  have h3 := unravel_dot_loop_eq (List.zip shape stride).reverse idx 0
  rw [wrapInt32_zero, h1, h2] at h3
  rw [h3, Option.map_map]
  cases hd : unravel_loop shape.reverse idx with
  | none => rfl
  | some d =>
    have hlen : d.length = stride.reverse.length := by
      rw [unravel_loop_length _ _ _ hd]
      simp [h]
    simp only [Option.map_some', Function.comp, dot_eq_wrap]
    rw [← weightedSum_reverse d stride.reverse hlen, List.reverse_reverse]
    simp

/-! ## Lemmas on failure and on `fill` -/

theorem unravel_loop_isSome_iff :
    ∀ (rs : List Int) (j : Int), (∃ d, unravel_loop rs j = some d) ↔ (0 : Int) ∉ rs := by
  intro rs
  induction rs with
  | nil => intro j; simp [unravel_loop]
  | cons sh rest ih =>
    intro j
    simp only [unravel_loop, List.mem_cons, not_or]
    by_cases h0 : sh = 0
    · simp [h0]
    · simp only [h0, if_false, Option.map_eq_some']
      constructor
      · rintro ⟨d, r, hr, _⟩
        exact ⟨fun e => h0 e.symm, (ih _).1 ⟨r, hr⟩⟩
      · rintro ⟨_, hrest⟩
        obtain ⟨r, hr⟩ := (ih (wrapInt32 (Int.tdiv j sh))).2 hrest
        exact ⟨_, r, hr, rfl⟩

theorem unravel_isSome_iff (idx : Int) (shape : List Int) :
    (∃ c, unravel idx shape = some c) ↔ (0 : Int) ∉ shape := by
  unfold unravel
  rw [← List.mem_reverse, ← unravel_loop_isSome_iff shape.reverse idx]
  simp only [Option.map_eq_some']
  constructor
  · rintro ⟨c, d, hd, _⟩
    exact ⟨d, hd⟩
  · rintro ⟨d, hd⟩
    exact ⟨_, d, hd, rfl⟩

/-- While no running product overflows the `index_t`, the loop of `calc_stride` computes
with exact products. -/
theorem calc_stride_loop_exact (w : Int → Int) :
    ∀ (rs : List Int) (cum : Int),
      (∀ k : Nat, k ≤ rs.length → w (cum * (rs.take k).prod) = cum * (rs.take k).prod) →
      calc_stride_loop w rs cum = calc_stride_loop id rs cum := by
  intro rs
  induction rs with
  | nil => intro cum _; rfl
  | cons sh rest ih =>
    intro cum h
    have h1 : w (cum * sh) = cum * sh := by
      have := h 1 (by simp)
      simpa using this
    simp only [calc_stride_loop, h1, id]
    congr 1
    apply ih
    intro k hk
    have := h (k + 1) (by simp; omega)
    simp only [List.take_succ_cons, List.prod_cons] at this
    rw [mul_assoc]
    exact this

theorem calc_stride_loop_append :
    ∀ (a b : List Int) (cum : Int),
      calc_stride_loop id (a ++ b) cum =
        calc_stride_loop id a cum ++ calc_stride_loop id b (cum * a.prod) := by
  intro a
  induction a with
  | nil => intro b cum; simp [calc_stride_loop]
  | cons sh rest ih =>
    intro b cum
    rw [List.cons_append]
    simp only [calc_stride_loop, id, List.prod_cons]
    rw [ih, mul_assoc, List.cons_append]

/-- With exact products the loop of `calc_stride` yields the stride rule, scaled by the
starting value of `cumprod`. -/
theorem calc_stride_loop_strideRule :
    ∀ (l : List Int) (cum : Int),
      (calc_stride_loop id l.reverse cum).reverse = (strideRule l).map (fun x => cum * x) := by
  intro l
  induction l with
  | nil => intro cum; rfl
  | cons sh rest ih =>
    intro cum
    rw [List.reverse_cons, calc_stride_loop_append, List.reverse_append, ih]
    simp only [calc_stride_loop, List.reverse_cons, List.reverse_nil, List.nil_append,
      List.singleton_append, strideRule, List.map_cons, List.prod_reverse]
    congr 1
    split <;> simp

theorem calc_stride_eq_strideRule (w : Int → Int) (shape : List Int)
    (hno : ∀ i : Nat, i ≤ shape.length → w (shape.drop i).prod = (shape.drop i).prod) :
    calc_stride w shape = strideRule shape := by
  unfold calc_stride
  rw [calc_stride_loop_exact w shape.reverse 1, calc_stride_loop_strideRule]
  · simp
  · intro k hk
    rw [List.length_reverse] at hk
    rw [List.take_reverse, List.prod_reverse, one_mul]
    exact hno _ (by omega)

theorem strideRule_getElem? :
    ∀ (shape : List Int) (i : Nat) (sh : Int), shape[i]? = some sh →
      (strideRule shape)[i]? = some (if sh > 1 then (shape.drop (i + 1)).prod else 0) := by
  intro shape
  induction shape with
  | nil => intro i sh h; simp at h
  | cons a rest ih =>
    intro i sh h
    cases i with
    | zero =>
      simp only [List.getElem?_cons_zero, Option.some.injEq] at h
      subst h
      simp [strideRule]
    | succ i =>
      simp only [List.getElem?_cons_succ] at h
      simpa [strideRule] using ih i sh h

/-- Whatever the running product is, a dimension of size at most one gets stride zero. -/
theorem calc_stride_loop_zero (w : Int → Int) :
    ∀ (rs : List Int) (cum : Int) (i : Nat) (sh : Int), rs[i]? = some sh → sh ≤ 1 →
      (calc_stride_loop w rs cum)[i]? = some 0 := by
  intro rs
  induction rs with
  | nil => intro cum i sh h; simp at h
  | cons a rest ih =>
    intro cum i sh h hsh
    cases i with
    | zero =>
      simp only [List.getElem?_cons_zero, Option.some.injEq] at h
      subst h
      have : ¬ a > 1 := by omega
      simp [calc_stride_loop, this]
    | succ i =>
      simp only [List.getElem?_cons_succ] at h
      simpa [calc_stride_loop] using ih _ i sh h hsh

theorem calc_stride_zero (w : Int → Int) (shape : List Int) (k : Nat) (sh : Int)
    (hk : shape[k]? = some sh) (hsh : sh ≤ 1) : (calc_stride w shape)[k]? = some 0 := by
  have hlt : k < shape.length := by
    by_contra hc
    rw [List.getElem?_eq_none (by omega)] at hk
    exact Option.noConfusion hk
  unfold calc_stride
  rw [List.getElem?_reverse (by rw [calc_stride_loop_length, List.length_reverse]; exact hlt),
    calc_stride_loop_length, List.length_reverse]
  apply calc_stride_loop_zero w _ _ _ sh _ hsh
  rw [List.getElem?_reverse (by omega)]
  have : shape.length - 1 - (shape.length - 1 - k) = k := by omega
  rw [this]
  exact hk

theorem weightedSum_eq_zipWith (c w : List Int) :
    weightedSum c w = (List.zipWith (fun a b => a * b) c w).sum := by
  unfold weightedSum
  rw [List.zip_eq_zipWith, List.map_zipWith]

/-! ## Lemmas on `ravel` as a weighted sum -/

theorem wrapInt32_wrapUInt32 (x : Int) : wrapInt32 (wrapUInt32 x) = wrapInt32 x := by
  unfold wrapInt32 wrapUInt32
  omega

theorem wrapInt32_modEq (x : Int) : wrapInt32 x ≡ x [ZMOD 4294967296] := by
  apply wrapInt32_congr.1
  unfold wrapInt32
  omega

theorem wrapInt32_mul_add (r sh g : Int) :
    wrapInt32 (wrapInt32 r * sh + g) = wrapInt32 (r * sh + g) :=
  wrapInt32_congr.2 (((wrapInt32_modEq r).mul_right sh).add_right g)

/-- The loop of `ravel` is Horner's rule on the guarded components, up to 32-bit
wrap-around. -/
theorem foldl_ravel_step (l : List (Int × Int)) :
    ∀ r : Int, l.foldl ravel_step (wrapInt32 r) =
      wrapInt32 (l.foldl (fun acc cs => acc * cs.2 + (if cs.2 > cs.1 then 1 else 0) * cs.1) r) := by
  induction l with
  | nil => intro r; rfl
  | cons p l ih =>
    intro r
    simp only [List.foldl_cons]
    have hstep : ravel_step (wrapInt32 r) p =
        wrapInt32 (r * p.2 + (if p.2 > p.1 then 1 else 0) * p.1) := by
      unfold ravel_step
      rw [wrapInt32_mul_add]
    rw [hstep, ih]

/-- Horner's rule on the guarded components is the weighted sum of the collapsed
coordinate with the row-major weights. -/
theorem foldl_horner (coord : List Int) :
    ∀ (shape : List Int) (r : Int), coord.length = shape.length →
      (List.zip coord shape).foldl
          (fun acc cs => acc * cs.2 + (if cs.2 > cs.1 then 1 else 0) * cs.1) r =
        r * shape.prod + weightedSum (collapseCoord coord shape) (rowMajorWeights shape) := by
  induction coord with
  | nil =>
    intro shape r h
    have : shape = [] := List.length_eq_zero.1 h.symm
    subst this
    simp [collapseCoord, weightedSum_nil_left]
  | cons c coord ih =>
    intro shape r h
    cases shape with
    | nil => simp at h
    | cons sh shape =>
      simp only [List.length_cons, add_left_inj] at h
      simp only [List.zip_cons_cons, List.foldl_cons]
      rw [ih shape _ h]
      unfold collapseCoord
      simp only [List.zipWith_cons_cons, rowMajorWeights, weightedSum_cons, List.prod_cons]
      have hg : (if sh > c then (1 : Int) else 0) * c = if c < sh then c else 0 := by
        by_cases hc : c < sh
        · have : sh > c := hc
          simp [hc, this]
        · have : ¬ sh > c := hc
          simp [hc, this]
      rw [hg]
      ring

theorem ravel_eq_wrap_weightedSum (coord shape : List Int) (h : coord.length = shape.length) :
    ravel coord shape =
      wrapInt32 (weightedSum (collapseCoord coord shape) (rowMajorWeights shape)) := by
  unfold ravel
  have h1 := foldl_ravel_step (List.zip coord shape) 0
  rw [wrapInt32_zero] at h1
  rw [h1, foldl_horner coord shape 0 h]
  simp

theorem collapseCoord_of_InShape :
    ∀ (coord shape : List Int), InShape coord shape → collapseCoord coord shape = coord := by
  intro coord
  induction coord with
  | nil => intro shape _; simp [collapseCoord]
  | cons c coord ih =>
    intro shape h
    cases shape with
    | nil => simp [InShape] at h
    | cons sh shape =>
      obtain ⟨⟨_, hc1⟩, hin⟩ := InShape_cons.1 h
      have := ih shape hin
      unfold collapseCoord at this ⊢
      simp [hc1, this]

theorem InShape_collapseCoord :
    ∀ (coord shape : List Int), coord.length = shape.length → (∀ d ∈ shape, 1 ≤ d) →
      (∀ x ∈ coord, 0 ≤ x) → InShape (collapseCoord coord shape) shape := by
  intro coord
  induction coord with
  | nil =>
    intro shape h _ _
    have : shape = [] := List.length_eq_zero.1 h.symm
    subst this
    simp [collapseCoord, InShape]
  | cons c coord ih =>
    intro shape h hs hc
    cases shape with
    | nil => simp at h
    | cons sh shape =>
      simp only [List.length_cons, add_left_inj] at h
      have hsh : 1 ≤ sh := hs sh (List.mem_cons_self _ _)
      have hc0 : 0 ≤ c := hc c (List.mem_cons_self _ _)
      have hrec := ih shape h (fun d hd => hs d (List.mem_cons_of_mem _ hd))
        (fun x hx => hc x (List.mem_cons_of_mem _ hx))
      unfold collapseCoord at hrec ⊢
      rw [List.zipWith_cons_cons]
      apply InShape_cons.2
      refine ⟨?_, hrec⟩
      by_cases hlt : c < sh
      · rw [if_pos hlt]
        exact ⟨hc0, hlt⟩
      · rw [if_neg hlt]
        exact ⟨le_refl 0, by omega⟩

/-- The weighted sum of a coordinate within its shape lies in `[0, product(shape))`. -/
theorem weightedSum_bounds :
    ∀ (coord shape : List Int), InShape coord shape →
      0 ≤ weightedSum coord (rowMajorWeights shape) ∧
        weightedSum coord (rowMajorWeights shape) < shape.prod := by
  intro coord
  induction coord with
  | nil =>
    intro shape h
    rw [InShape_nil_left.1 h]
    simp [weightedSum_nil_left]
  | cons c coord ih =>
    intro shape h
    cases shape with
    | nil => simp [InShape] at h
    | cons sh shape =>
      obtain ⟨⟨hc0, hc1⟩, hin⟩ := InShape_cons.1 h
      obtain ⟨h0, h1⟩ := ih shape hin
      simp only [rowMajorWeights, weightedSum_cons, List.prod_cons]
      have hP : 0 < shape.prod := by omega
      have hcP : 0 ≤ c * shape.prod := mul_nonneg hc0 (le_of_lt hP)
      constructor
      · omega
      · nlinarith

theorem ravel_eq_weightedSum_in_range (coord shape : List Int) (h : InShape coord shape)
    (hp : shape.prod ≤ INT_MAX + 1) :
    ravel coord shape = weightedSum coord (rowMajorWeights shape) := by
  unfold INT_MAX at hp
  obtain ⟨h0, h1⟩ := weightedSum_bounds coord shape h
  rw [ravel_eq_wrap_weightedSum coord shape h.1, collapseCoord_of_InShape coord shape h]
  exact wrapInt32_eq_self (by omega) (by omega)

/-! ## Lemmas relating `ravel` to `dot` with `calc_stride` -/

/-- With an `index_t` that keeps values modulo `2^32`, the strides `calc_stride` returns
agree modulo `2^32` with those computed from exact products. -/
theorem calc_stride_loop_modEq (w : Int → Int) (hw : ∀ x, wrapInt32 (w x) = wrapInt32 x) :
    ∀ (rs : List Int) (cum cum2 : Int), cum ≡ cum2 [ZMOD 4294967296] →
      List.Forall₂ (fun a b => a ≡ b [ZMOD 4294967296])
        (calc_stride_loop w rs cum) (calc_stride_loop id rs cum2) := by
  intro rs
  induction rs with
  | nil => intro cum cum2 _; exact List.Forall₂.nil
  | cons sh rest ih =>
    intro cum cum2 h
    simp only [calc_stride_loop, id]
    refine List.Forall₂.cons ?_ (ih _ _ ?_)
    · by_cases hsh : sh > 1
      · simp only [hsh, if_true]
        exact h
      · simp only [hsh, if_false]
        exact Int.ModEq.refl 0
    · exact (wrapInt32_congr.1 (hw (cum * sh))).trans (h.mul_right sh)

theorem calc_stride_modEq (w : Int → Int) (hw : ∀ x, wrapInt32 (w x) = wrapInt32 x)
    (shape : List Int) :
    List.Forall₂ (fun a b => a ≡ b [ZMOD 4294967296]) (calc_stride w shape) (strideRule shape) := by
  rw [← calc_stride_eq_strideRule id shape (fun _ _ => rfl)]
  unfold calc_stride
  rw [List.forall₂_reverse_iff]
  exact calc_stride_loop_modEq w hw shape.reverse 1 1 (Int.ModEq.refl 1)

theorem weightedSum_modEq {st st2 : List Int}
    (h : List.Forall₂ (fun a b => a ≡ b [ZMOD 4294967296]) st st2) :
    ∀ c : List Int, weightedSum c st ≡ weightedSum c st2 [ZMOD 4294967296] := by
  induction h with
  | nil => intro c; simp [weightedSum_nil_right, Int.ModEq.refl]
  | cons hab _ ih =>
    intro c
    cases c with
    | nil => simp [weightedSum_nil_left, Int.ModEq.refl]
    | cons x c =>
      rw [weightedSum_cons, weightedSum_cons]
      exact (hab.mul_left x).add (ih c)

theorem BroadcastCoord_cons {c sh : Int} {coord shape : List Int} :
    BroadcastCoord (c :: coord) (sh :: shape) ↔
      (0 ≤ c ∧ 1 ≤ sh ∧ (c < sh ∨ sh = 1)) ∧ BroadcastCoord coord shape := by
  unfold BroadcastCoord
  simp only [List.length_cons, add_left_inj, List.zip_cons_cons, List.mem_cons, forall_eq_or_imp]
  tauto

/-- Along a broadcast coordinate the zero strides of the stride rule and the guard of
`ravel` drop the same terms. -/
theorem weightedSum_strideRule :
    ∀ (coord shape : List Int), BroadcastCoord coord shape →
      weightedSum coord (strideRule shape) =
        weightedSum (collapseCoord coord shape) (rowMajorWeights shape) := by
  intro coord
  induction coord with
  | nil => intro shape _; simp [collapseCoord, weightedSum_nil_left]
  | cons c coord ih =>
    intro shape h
    cases shape with
    | nil => simp [BroadcastCoord] at h
    | cons sh shape =>
      obtain ⟨⟨hc0, hsh, hor⟩, hrest⟩ := BroadcastCoord_cons.1 h
      have hrec := ih shape hrest
      unfold collapseCoord at hrec ⊢
      simp only [strideRule, rowMajorWeights, List.zipWith_cons_cons, weightedSum_cons, hrec]
      congr 1
      by_cases h1 : sh > 1
      · have hlt : c < sh := by omega
        simp [h1, hlt]
      · have hsh1 : sh = 1 := by omega
        subst hsh1
        by_cases hlt : c < 1
        · have : c = 0 := by omega
          simp [this]
        · simp [h1, hlt]

/-! ## Lemmas on the digits `unravel` returns -/

theorem ediv_ediv_of_nonneg (a b c : Int) (ha : 0 ≤ a) (hb : 0 ≤ b) (hc : 0 ≤ c) :
    a / b / c = a / (b * c) := by
  obtain ⟨x, rfl⟩ := Int.eq_ofNat_of_zero_le ha
  obtain ⟨y, rfl⟩ := Int.eq_ofNat_of_zero_le hb
  obtain ⟨z, rfl⟩ := Int.eq_ofNat_of_zero_le hc
  norm_cast
  exact Nat.div_div_eq_div_mul x y z

/-- One step of the loop of `unravel` on a non-negative `int` and a positive dimension:
the quotient and the remainder. -/
theorem unravel_step_eq (j sh : Int) (h0 : 0 ≤ j) (hmax : j < 2147483648) (hsh : 1 ≤ sh) :
    wrapInt32 (Int.tdiv j sh) = j / sh ∧ j - wrapInt32 (Int.tdiv j sh) * sh = j % sh := by
  have hq0 : 0 ≤ j / sh := Int.ediv_nonneg h0 (by omega)
  have hq1 : j / sh ≤ j := Int.ediv_le_self _ h0
  have htd : wrapInt32 (Int.tdiv j sh) = j / sh := by
    rw [Int.tdiv_eq_ediv h0 (by omega), wrapInt32_eq_self (by omega) (by omega)]
  refine ⟨htd, ?_⟩
  rw [htd]
  have := Int.emod_add_ediv j sh
  linarith

theorem unravel_loop_snoc :
    ∀ (a : List Int) (sh j : Int), (∀ d ∈ a, 1 ≤ d) → 1 ≤ sh → 0 ≤ j → j < 2147483648 →
      unravel_loop (a ++ [sh]) j =
        (unravel_loop a j).map (fun d => d ++ [(j / a.prod) % sh]) := by
  intro a
  induction a with
  | nil =>
    intro sh j _ hsh h0 hmax
    obtain ⟨e1, e2⟩ := unravel_step_eq j sh h0 hmax hsh
    have hne : sh ≠ 0 := by omega
    simp [unravel_loop, hne, e2]
  | cons x a ih =>
    intro sh j ha hsh h0 hmax
    have hx : 1 ≤ x := ha x (List.mem_cons_self _ _)
    have hne : x ≠ 0 := by omega
    obtain ⟨e1, e2⟩ := unravel_step_eq j x h0 hmax hx
    have hq0 : 0 ≤ j / x := Int.ediv_nonneg h0 (by omega)
    have hq1 : j / x ≤ j := Int.ediv_le_self _ h0
    have hprod : 0 ≤ a.prod :=
      List.prod_nonneg (fun d hd => by have := ha d (List.mem_cons_of_mem _ hd); omega)
    have hdiv : j / x / a.prod = j / (x :: a).prod := by
      rw [List.prod_cons]
      exact ediv_ediv_of_nonneg j x a.prod h0 (by omega) hprod
    simp only [List.cons_append, unravel_loop, hne, if_false, e1]
    change Option.map (fun r => (j - j / x * x) :: r) (unravel_loop (a ++ [sh]) (j / x)) = _
    rw [ih sh (j / x) (fun d hd => ha d (List.mem_cons_of_mem _ hd)) hsh hq0 (by omega), hdiv]
    cases unravel_loop a (j / x) <;> simp

theorem unravel_loop_digits (idx : Int) (h0 : 0 ≤ idx) (hmax : idx < 2147483648) :
    ∀ shape : List Int, (∀ d ∈ shape, 1 ≤ d) →
      unravel_loop shape.reverse idx = some (mixedRadixDigits idx shape).reverse := by
  intro shape
  induction shape with
  | nil => intro _; rfl
  | cons sh rest ih =>
    intro hs
    have hrest : ∀ d ∈ rest, 1 ≤ d := fun d hd => hs d (List.mem_cons_of_mem _ hd)
    rw [List.reverse_cons, unravel_loop_snoc rest.reverse sh idx
      (fun d hd => hrest d (List.mem_reverse.1 hd)) (hs sh (List.mem_cons_self _ _)) h0 hmax,
      ih hrest, List.prod_reverse]
    simp [mixedRadixDigits]

theorem InShape_mixedRadixDigits (idx : Int) :
    ∀ shape : List Int, (∀ d ∈ shape, 1 ≤ d) → InShape (mixedRadixDigits idx shape) shape := by
  intro shape
  induction shape with
  | nil => intro _; simp [mixedRadixDigits, InShape]
  | cons sh rest ih =>
    intro hs
    have hsh : 1 ≤ sh := hs sh (List.mem_cons_self _ _)
    simp only [mixedRadixDigits]
    apply InShape_cons.2
    exact ⟨⟨Int.emod_nonneg _ (by omega), Int.emod_lt_of_pos _ (by omega)⟩,
      ih (fun d hd => hs d (List.mem_cons_of_mem _ hd))⟩

theorem emod_mul_of_nonneg (x a b : Int) (hx : 0 ≤ x) (ha : 0 ≤ a) (hb : 0 ≤ b) :
    x % (a * b) = x % a + a * (x / a % b) := by
  obtain ⟨n, rfl⟩ := Int.eq_ofNat_of_zero_le hx
  obtain ⟨p, rfl⟩ := Int.eq_ofNat_of_zero_le ha
  obtain ⟨q, rfl⟩ := Int.eq_ofNat_of_zero_le hb
  norm_cast
  exact Nat.mod_mul

/-- The digits, weighted by the row-major weights, add up to `idx` modulo the product of
the shape: what lies above the product is discarded. -/
theorem weightedSum_mixedRadixDigits (idx : Int) (h0 : 0 ≤ idx) :
    ∀ shape : List Int, (∀ d ∈ shape, 1 ≤ d) →
      weightedSum (mixedRadixDigits idx shape) (rowMajorWeights shape) = idx % shape.prod := by
  intro shape
  induction shape with
  | nil => intro _; simp [mixedRadixDigits, weightedSum_nil_left]
  | cons sh rest ih =>
    intro hs
    have hsh : 1 ≤ sh := hs sh (List.mem_cons_self _ _)
    have hrest : ∀ d ∈ rest, 1 ≤ d := fun d hd => hs d (List.mem_cons_of_mem _ hd)
    have hprod : 0 ≤ rest.prod := List.prod_nonneg (fun d hd => by have := hrest d hd; omega)
    simp only [mixedRadixDigits, rowMajorWeights, weightedSum_cons, List.prod_cons, ih hrest]
    rw [mul_comm sh rest.prod, emod_mul_of_nonneg idx rest.prod sh h0 hprod (by omega)]
    ring

/-- Filling the slots of a list of in-range indices, in any order and with repetitions,
stays inside the buffer: the slots listed hold the value, the others are unchanged. -/
theorem mapAll_fill_Map_any {α : Type} (val : α) :
    ∀ (l : List Int) (out : List α), (∀ i ∈ l, 0 ≤ i ∧ i < (out.length : Int)) →
      ∃ res, mapAll (fill_Map val) l (some out) = some res ∧ res.length = out.length ∧
        (∀ j : Nat, (j : Int) ∈ l → res[j]? = some val) ∧
        (∀ j : Nat, (j : Int) ∉ l → res[j]? = out[j]?) := by
  intro l
  induction l with
  | nil =>
    intro out _
    exact ⟨out, rfl, rfl, fun j hj => absurd hj (List.not_mem_nil _), fun _ _ => rfl⟩
  | cons a t ih =>
    intro out h
    obtain ⟨ha0, ha1⟩ := h a (List.mem_cons_self _ _)
    have hlen : (out.set a.toNat val).length = out.length := List.length_set _ _ _
    have hstep : mapAll (fill_Map val) (a :: t) (some out) =
        mapAll (fill_Map val) t (some (out.set a.toNat val)) := by
      simp only [mapAll, List.foldl_cons, fill_Map, Option.some_bind, ha0, ha1, and_self,
        if_true]
    obtain ⟨res, hres, hrl, hin, hout⟩ := ih (out.set a.toNat val)
      (fun i hi => by rw [hlen]; exact h i (List.mem_cons_of_mem _ hi))
    refine ⟨res, by rw [hstep, hres], by rw [hrl, hlen], ?_, ?_⟩
    · intro j hj
      by_cases hjt : (j : Int) ∈ t
      · exact hin j hjt
      · have hja : (j : Int) = a := by
          rcases List.mem_cons.1 hj with e | e
          · exact e
          · exact absurd e hjt
        have hjn : a.toNat = j := by omega
        rw [hout j hjt, hjn]
        exact List.getElem?_set_self (by omega)
    · intro j hj
      have hjt : (j : Int) ∉ t := fun e => hj (List.mem_cons_of_mem _ e)
      have hne : a.toNat ≠ j := by
        intro e
        apply hj
        rw [← e, Int.toNat_of_nonneg ha0]
        exact List.mem_cons_self _ _
      rw [hout j hjt]
      exact List.getElem?_set_ne hne

/-- The outcome of `fill` does not depend on the build: with the OpenMP pragma and any
order of the iterations, every slot below `N` holds the value and every other slot is
unchanged. -/
theorem Kernel_cpu_Launch_build_fill {α : Type} (MXNET_USE_CUDA : Int)
    (schedule : List Int → List Int) (hsched : ∀ l : List Int, (schedule l).Perm l)
    (N : Int) (out : List α) (val : α) (fuel : Nat)
    (h0 : 0 ≤ N) (hN : N ≤ INT_MAX) (hlen : N ≤ (out.length : Int)) (hf : N.toNat < fuel) :
    ∃ res, Kernel_cpu_Launch_build MXNET_USE_CUDA schedule (fill_Map val) N fuel (some out) =
        some (some res) ∧
      res.length = out.length ∧
      (∀ i : Nat, (i : Int) < N → res[i]? = some val) ∧
      (∀ j : Nat, N ≤ (j : Int) → res[j]? = out[j]?) := by
  have key : ∀ idxs : List Int, idxs.Perm (indexRange N) →
      ∃ res, mapAll (fill_Map val) idxs (some out) = some res ∧ res.length = out.length ∧
        (∀ i : Nat, (i : Int) < N → res[i]? = some val) ∧
        (∀ j : Nat, N ≤ (j : Int) → res[j]? = out[j]?) := by
    intro idxs hp
    have hmem : ∀ x : Int, x ∈ idxs ↔ 0 ≤ x ∧ x < N := fun x =>
      (List.Perm.mem_iff hp).trans mem_indexRange
    obtain ⟨res, hres, hrl, hin, hout⟩ := mapAll_fill_Map_any val idxs out
      (fun i hi => by have := (hmem i).1 hi; omega)
    refine ⟨res, hres, hrl, ?_, ?_⟩
    · intro i hi
      exact hin i ((hmem _).2 ⟨Int.ofNat_nonneg i, hi⟩)
    · intro j hj
      exact hout j (fun e => by have := (hmem _).1 e; omega)
  unfold Kernel_cpu_Launch_build
  by_cases hb : MXNET_USE_CUDA = 0
  · obtain ⟨res, hres, rest⟩ := key (schedule (indexRange N)) (hsched _)
    refine ⟨res, ?_, rest⟩
    rw [if_pos hb, Kernel_cpu_Launch_omp_eq schedule _ N fuel _ h0 hN hf, hres]
  · obtain ⟨res, hres, rest⟩ := key (indexRange N) (List.Perm.refl _)
    refine ⟨res, ?_, rest⟩
    rw [if_neg hb, Kernel_cpu_Launch_eq _ N fuel _ h0 hN hf, hres]

/-! ## Claims -/

/-- C1, as stated, fails: in the build with `#pragma omp parallel for`
(`MXNET_USE_CUDA == 0`) and two threads in lockstep, the launch with `N = 3` passes the
indices to `Map` in the order `0, 2, 1`, not `0, 1, 2`. -/
theorem Kernel_cpu_Launch_omp_not_in_order :
    (∀ l : List Int, (twoThreadSchedule l).Perm l) ∧
      Kernel_cpu_Launch_build 0 twoThreadSchedule recordMap 3 5 [] = some [0, 2, 1] ∧
      Kernel_cpu_Launch_build 0 twoThreadSchedule recordMap 3 5 [] ≠ some (indexRange 3) := by
  refine ⟨twoThreadSchedule_perm, by decide, by decide⟩

/-- C1, amended: on the host path, for every `N` with `0 ≤ N` (a C int, so `N ≤ INT_MAX`),
every operation, either build and every order the OpenMP runtime may schedule the
iterations in, the launch returns once it is given more than `N` steps, and what it has
done is to apply `Map` once at each index of `[0, N)` and at no other index: the indices
passed to `Map` are a permutation of `0, 1, ..., N-1`. Without the OpenMP pragma
(`MXNET_USE_CUDA != 0`) they are `0, 1, ..., N-1` in this order; for `N = 0` there is no
invocation. -/
theorem Kernel_cpu_Launch_visits_each_index_once {σ : Type} (MXNET_USE_CUDA : Int)
    (schedule : List Int → List Int) (hsched : ∀ l : List Int, (schedule l).Perm l)
    (Map : Int → σ → σ) (N : Int) (fuel : Nat) (s : σ)
    (h0 : 0 ≤ N) (hN : N ≤ INT_MAX) (hf : N.toNat < fuel) :
    ∃ idxs : List Int, idxs.Perm (indexRange N) ∧
      Kernel_cpu_Launch_build MXNET_USE_CUDA schedule Map N fuel s =
        some (mapAll Map idxs s) ∧
      Kernel_cpu_Launch_build MXNET_USE_CUDA schedule recordMap N fuel [] = some idxs ∧
      (MXNET_USE_CUDA ≠ 0 → idxs = indexRange N) ∧
      (N = 0 → idxs = []) := by
  by_cases hb : MXNET_USE_CUDA = 0
  · refine ⟨schedule (indexRange N), hsched _, ?_, ?_, fun h => absurd hb h, ?_⟩
    · unfold Kernel_cpu_Launch_build
      rw [if_pos hb, Kernel_cpu_Launch_omp_eq schedule Map N fuel s h0 hN hf]
    · unfold Kernel_cpu_Launch_build
      rw [if_pos hb, Kernel_cpu_Launch_omp_eq schedule recordMap N fuel [] h0 hN hf,
        mapAll_recordMap]
      simp
    · intro hz
      subst hz
      have h := hsched (indexRange 0)
      have e : indexRange 0 = [] := by simp [indexRange]
      rw [e] at h ⊢
      exact List.Perm.eq_nil h
  · refine ⟨indexRange N, List.Perm.refl _, ?_, ?_, fun _ => rfl, ?_⟩
    · unfold Kernel_cpu_Launch_build
      rw [if_neg hb, Kernel_cpu_Launch_eq Map N fuel s h0 hN hf]
    · unfold Kernel_cpu_Launch_build
      rw [if_neg hb, Kernel_cpu_Launch_eq recordMap N fuel [] h0 hN hf, mapAll_recordMap]
      simp
    · intro hz
      subst hz
      simp [indexRange]

/-- C1, amended, at `N = 3` with five steps of fuel, in the OpenMP build with two threads
in lockstep. -/
theorem Kernel_cpu_Launch_visits_each_index_once_witness :
    ∃ idxs : List Int, idxs.Perm (indexRange 3) ∧
      Kernel_cpu_Launch_build 0 twoThreadSchedule recordMap 3 5 [] =
        some (mapAll recordMap idxs []) ∧
      Kernel_cpu_Launch_build 0 twoThreadSchedule recordMap 3 5 [] = some idxs ∧
      ((0 : Int) ≠ 0 → idxs = indexRange 3) ∧
      ((3 : Int) = 0 → idxs = []) :=
  Kernel_cpu_Launch_visits_each_index_once 0 twoThreadSchedule twoThreadSchedule_perm
    recordMap 3 5 [] (by decide) (by decide) (by decide)

/-- C2, at a failing input: with `N = 2147483392` (below `INT_MAX`), `kBaseThreadNum = 256`
and `kMaxGridNum = 65535`, the grid has 65535 blocks; whatever fuel thread 0 of block 0 is
given, if it returns it has passed the index `-2130739456` to `Map`; so no run of the launch
returns having visited exactly the indices of `[0, N)`. -/
theorem Kernel_gpu_Launch_overflows_near_INT_MAX :
    Kernel_gpu_Launch_calls 65535 256 2147483392 = [⟨65535, 256, 2147483392⟩] ∧
      (∀ (fuel : Nat) (tr : List Int),
        mxnet_generic_kernel recordMap 2147483392 0 256 0 65535 fuel [] = some tr →
          (-2130739456 : Int) ∈ tr) ∧
      ¬ ∃ (fuel : Nat) (tr : List Int),
        Kernel_gpu_Launch 65535 256 recordMap 2147483392 fuel [] = some tr ∧
          tr.Perm (indexRange 2147483392) := by
  refine ⟨by decide, mxnet_generic_kernel_thread0_overflow, ?_⟩
  rintro ⟨fuel, tr, hrun, hperm⟩
  unfold Kernel_gpu_Launch at hrun
  have hc : Kernel_gpu_Launch_calls 65535 256 2147483392 = [⟨65535, 256, 2147483392⟩] := by
    decide
  rw [hc] at hrun
  simp only [List.foldlM_cons, List.foldlM_nil, hipLaunchKernelGGL] at hrun
  have hG : (65535 : Int).toNat = 65535 := by decide
  have hB : (256 : Int).toNat = 256 := by decide
  rw [hG, hB] at hrun
  obtain ⟨rest, hrest⟩ := gridThreads_head 65535 256 (by decide) (by decide)
  rw [hrest, List.foldlM_cons] at hrun
  obtain ⟨s1, h1, h2⟩ := Option.bind_eq_some.1 hrun
  obtain ⟨s2, h3, h4⟩ := Option.bind_eq_some.1 h1
  have hmem1 : (-2130739456 : Int) ∈ s2 := mxnet_generic_kernel_thread0_overflow fuel s2 h3
  have hmem2 : (-2130739456 : Int) ∈ s1 := by
    refine foldlM_recordMap_mono _ ?_ rest s2 s1 h4 _ hmem1
    intro bt s tr hs
    exact mxnet_generic_kernel_loop_recordMap_mono _ _ _ _ _ _ hs
  simp only [Option.pure_def, Option.some.injEq] at h2
  rw [h2] at hmem2
  have := (mem_indexRange.1 ((List.Perm.mem_iff hperm).1 hmem2)).1
  omega

/-- C3, at a failing input: for `N = INT_MAX` with `kBaseThreadNum = 256` and
`kMaxGridNum = 65535` the sum `N + kBaseThreadNum` overflows the `int`, and
`cuda_get_num_blocks` (and the `ngrid` of the accelerator launch, the same expression)
is `-8388607`, whereas `min(kMaxGridNum, ceil(N / kBaseThreadNum))` is `65535`. -/
theorem cuda_get_num_blocks_overflows_at_INT_MAX :
    cuda_get_num_blocks 65535 256 INT_MAX = -8388607 ∧
      Kernel_gpu_Launch_calls 65535 256 INT_MAX = [⟨-8388607, 256, INT_MAX⟩] ∧
      min (65535 : Int) ⌈((INT_MAX : Int) : ℚ) / ((256 : Int) : ℚ)⌉ = 65535 := by
  refine ⟨by decide, by decide, ?_⟩
  rw [ceil_div_eq INT_MAX 256 (by decide)]
  decide

/-- C4, as stated, fails: with `kBaseThreadNum = 256` and `kMaxGridNum = 65535`,
`cuda_get_num_blocks(65536 * 256)` is `65535`, not `65536`. -/
theorem cuda_get_num_blocks_multiple_clamped :
    ¬ (cuda_get_num_blocks 65535 256 (65536 * 256) = 65536 ∧
        cuda_get_num_blocks 65535 256 (65536 * 256 + 1) = 65536 + 1) := by
  decide

/-- C4, amended: for every `k ≥ 0` with `k * T + T ≤ INT_MAX`, where `T = kBaseThreadNum > 0`,
`cuda_get_num_blocks(k * T) = min(kMaxGridNum, k)` and
`cuda_get_num_blocks(k * T + 1) = min(kMaxGridNum, k + 1)`. -/
theorem cuda_get_num_blocks_rounding (M T k : Int) (hT : 0 < T) (hk : 0 ≤ k)
    (hov : k * T + T ≤ INT_MAX) :
    cuda_get_num_blocks M T (k * T) = min M k ∧
      cuda_get_num_blocks M T (k * T + 1) = min M (k + 1) := by
  have hkT : 0 ≤ k * T := mul_nonneg hk (le_of_lt hT)
  constructor
  · rw [cuda_get_num_blocks_in_range M T (k * T) hT hkT (by omega)]
    have e : k * T + T - 1 = (T - 1) + k * T := by ring
    rw [e, Int.add_mul_ediv_right _ _ (ne_of_gt hT), Int.ediv_eq_zero_of_lt (by omega) (by omega)]
    simp
  · rw [cuda_get_num_blocks_in_range M T (k * T + 1) hT (by omega) (by omega)]
    have e : k * T + 1 + T - 1 = (k + 1) * T := by ring
    rw [e, Int.mul_ediv_cancel _ (ne_of_gt hT)]

/-- C4, amended, at `k = 3` with `kBaseThreadNum = 256` and `kMaxGridNum = 65535`. -/
theorem cuda_get_num_blocks_rounding_witness :
    cuda_get_num_blocks 65535 256 (3 * 256) = min 65535 3 ∧
      cuda_get_num_blocks 65535 256 (3 * 256 + 1) = min 65535 (3 + 1) :=
  cuda_get_num_blocks_rounding 65535 256 3 (by decide) (by decide) (by decide)

/-- C5, as stated, fails: for `N = 0` (with `kBaseThreadNum = 256`, `kMaxGridNum = 65535`)
the accelerator launch does call `hipLaunchKernelGGL`, with a grid of zero blocks. -/
theorem Kernel_gpu_Launch_zero_not_guarded :
    ¬ ((∀ fuel : Nat, Kernel_gpu_Launch 65535 256 recordMap 0 fuel [] = some []) ∧
        ∀ c ∈ Kernel_gpu_Launch_calls 65535 256 0, c.numBlocks ≠ 0) := by
  rintro ⟨_, h⟩
  exact h ⟨0, 256, 0⟩ (by decide) rfl

/-- C5, amended: for `N = 0` the accelerator launch invokes `Map` zero times (the state is
unchanged, whatever the operation); it makes its one call of `hipLaunchKernelGGL`
unguarded, with `ngrid = 0` blocks of `kBaseThreadNum` threads. -/
theorem Kernel_gpu_Launch_zero (M T : Int) (hM : 0 < M) (hT : 0 < T) (hT2 : T ≤ INT_MAX) :
    Kernel_gpu_Launch_calls M T 0 = [⟨0, T, 0⟩] ∧
      (∀ fuel : Nat, Kernel_gpu_Launch M T recordMap 0 fuel [] = some []) ∧
      ∀ (σ : Type) (Map : Int → σ → σ) (fuel : Nat) (s : σ),
        Kernel_gpu_Launch M T Map 0 fuel s = some s := by
  have hg : cuda_get_num_blocks M T 0 = 0 := by
    rw [cuda_get_num_blocks_in_range M T 0 hT (le_refl 0) (by omega)]
    have : (0 + T - 1) / T = 0 := Int.ediv_eq_zero_of_lt (by omega) (by omega)
    rw [this]
    omega
  have hrun : ∀ (σ : Type) (Map : Int → σ → σ) (fuel : Nat) (s : σ),
      Kernel_gpu_Launch M T Map 0 fuel s = some s := by
    intro σ Map fuel s
    unfold Kernel_gpu_Launch
    rw [Kernel_gpu_Launch_calls_eq, hg]
    simp [hipLaunchKernelGGL, gridThreads]
  refine ⟨?_, fun fuel => hrun _ recordMap fuel [], hrun⟩
  rw [Kernel_gpu_Launch_calls_eq, hg]

/-- C5, amended, at `kMaxGridNum = 65535` and `kBaseThreadNum = 256`. -/
theorem Kernel_gpu_Launch_zero_witness :
    Kernel_gpu_Launch_calls 65535 256 0 = [⟨0, 256, 0⟩] ∧
      (∀ fuel : Nat, Kernel_gpu_Launch 65535 256 recordMap 0 fuel [] = some []) ∧
      ∀ (σ : Type) (Map : Int → σ → σ) (fuel : Nat) (s : σ),
        Kernel_gpu_Launch 65535 256 Map 0 fuel s = some s :=
  Kernel_gpu_Launch_zero 65535 256 (by decide) (by decide) (by decide)

/-- C6: for every starting value `v0`, computed value `c` and request `req`, after
`KERNEL_ASSIGN(out, req, c)` the output is `v0` if `req` is `kNullOp`, `c` if `req` is
`kWriteTo` or `kWriteInplace`, `v0 + c` if `req` is `kAddTo`, and `v0` for every other
value of `req`. -/
theorem KERNEL_ASSIGN_merge {α : Type} [Add α] (E : OpReqType) (hE : E.Distinct)
    (v0 c : α) (req : Int) :
    (req = E.kNullOp → KERNEL_ASSIGN E v0 req c = v0) ∧
      (req = E.kWriteTo ∨ req = E.kWriteInplace → KERNEL_ASSIGN E v0 req c = c) ∧
      (req = E.kAddTo → KERNEL_ASSIGN E v0 req c = v0 + c) ∧
      (E.Unrecognized req → KERNEL_ASSIGN E v0 req c = v0) := by
  simp only [OpReqType.Distinct, List.nodup_cons, List.mem_cons, List.mem_singleton,
    List.not_mem_nil, not_or, List.nodup_nil, or_false, not_false_eq_true, and_true] at hE
  obtain ⟨⟨h12, h13, h14⟩, ⟨h23, h24⟩, h34⟩ := hE
  refine ⟨?_, ?_, ?_, ?_⟩
  · intro h
    simp [KERNEL_ASSIGN, h]
  · intro h
    have hn : req ≠ E.kNullOp := by
      rcases h with h | h <;> rw [h]
      · exact fun e => h12 e.symm
      · exact fun e => h13 e.symm
    simp [KERNEL_ASSIGN, hn, h]
  · intro h
    subst h
    have h1 : E.kAddTo ≠ E.kNullOp := fun e => h14 e.symm
    have h2 : E.kAddTo ≠ E.kWriteTo := fun e => h24 e.symm
    have h3 : E.kAddTo ≠ E.kWriteInplace := fun e => h34 e.symm
    simp [KERNEL_ASSIGN, h1, h2, h3]
  · rintro ⟨h1, h2, h3, h4⟩
    simp [KERNEL_ASSIGN, h1, h2, h3, h4]

/-- C6 with the sample enumerators, on integers: starting value 10, computed value 5,
request `kAddTo`. -/
theorem KERNEL_ASSIGN_merge_witness :
    sampleOpReqType.Distinct ∧
      ((3 : Int) = sampleOpReqType.kNullOp → KERNEL_ASSIGN sampleOpReqType (10 : Int) 3 5 = 10) ∧
      ((3 : Int) = sampleOpReqType.kWriteTo ∨ (3 : Int) = sampleOpReqType.kWriteInplace →
        KERNEL_ASSIGN sampleOpReqType (10 : Int) 3 5 = 5) ∧
      ((3 : Int) = sampleOpReqType.kAddTo →
        KERNEL_ASSIGN sampleOpReqType (10 : Int) 3 5 = 10 + 5) ∧
      (sampleOpReqType.Unrecognized 3 → KERNEL_ASSIGN sampleOpReqType (10 : Int) 3 5 = 10) :=
  ⟨by decide, KERNEL_ASSIGN_merge sampleOpReqType (by decide) 10 5 3⟩

/-- C7: for every `req`, `MXNET_ASSIGN_REQ_SWITCH` executes the body exactly once with
`ReqType = kWriteTo` when `req` is `kWriteTo` or `kWriteInplace`, exactly once with
`ReqType = kAddTo` when `req` is `kAddTo`, and not at all (state unchanged) when `req` is
`kNullOp` or unrecognized; `ReqType` is never bound to anything but `kWriteTo` or `kAddTo`. -/
theorem MXNET_ASSIGN_REQ_SWITCH_dispatch (E : OpReqType) (hE : E.Distinct) (req : Int) :
    (req = E.kWriteTo ∨ req = E.kWriteInplace →
        (∀ (σ : Type) (body : Int → σ → σ) (s : σ),
          MXNET_ASSIGN_REQ_SWITCH E req body s = body E.kWriteTo s) ∧
        MXNET_ASSIGN_REQ_SWITCH E req recordReqType [] = [E.kWriteTo]) ∧
      (req = E.kAddTo →
        (∀ (σ : Type) (body : Int → σ → σ) (s : σ),
          MXNET_ASSIGN_REQ_SWITCH E req body s = body E.kAddTo s) ∧
        MXNET_ASSIGN_REQ_SWITCH E req recordReqType [] = [E.kAddTo]) ∧
      (req = E.kNullOp ∨ E.Unrecognized req →
        (∀ (σ : Type) (body : Int → σ → σ) (s : σ),
          MXNET_ASSIGN_REQ_SWITCH E req body s = s) ∧
        MXNET_ASSIGN_REQ_SWITCH E req recordReqType [] = []) ∧
      (∀ r ∈ MXNET_ASSIGN_REQ_SWITCH E req recordReqType [], r = E.kWriteTo ∨ r = E.kAddTo) := by
  simp only [OpReqType.Distinct, List.nodup_cons, List.mem_cons, List.mem_singleton,
    List.not_mem_nil, not_or, List.nodup_nil, or_false, not_false_eq_true, and_true] at hE
  obtain ⟨⟨h12, h13, h14⟩, ⟨h23, h24⟩, h34⟩ := hE
  have hW : req = E.kWriteTo ∨ req = E.kWriteInplace →
      ∀ (σ : Type) (body : Int → σ → σ) (s : σ),
        MXNET_ASSIGN_REQ_SWITCH E req body s = body E.kWriteTo s := by
    intro h σ body s
    have hn : req ≠ E.kNullOp := by
      rcases h with h | h <;> rw [h]
      · exact fun e => h12 e.symm
      · exact fun e => h13 e.symm
    simp [MXNET_ASSIGN_REQ_SWITCH, hn, h.symm]
  have hA : req = E.kAddTo →
      ∀ (σ : Type) (body : Int → σ → σ) (s : σ),
        MXNET_ASSIGN_REQ_SWITCH E req body s = body E.kAddTo s := by
    intro h σ body s
    subst h
    have h1 : E.kAddTo ≠ E.kNullOp := fun e => h14 e.symm
    have h2 : E.kAddTo ≠ E.kWriteTo := fun e => h24 e.symm
    have h3 : E.kAddTo ≠ E.kWriteInplace := fun e => h34 e.symm
    simp [MXNET_ASSIGN_REQ_SWITCH, h1, h2, h3]
  have hN : req = E.kNullOp ∨ E.Unrecognized req →
      ∀ (σ : Type) (body : Int → σ → σ) (s : σ),
        MXNET_ASSIGN_REQ_SWITCH E req body s = s := by
    intro h σ body s
    rcases h with h | ⟨h1, h2, h3, h4⟩
    · simp [MXNET_ASSIGN_REQ_SWITCH, h]
    · simp [MXNET_ASSIGN_REQ_SWITCH, h1, h2, h3, h4]
  refine ⟨fun h => ⟨hW h, ?_⟩, fun h => ⟨hA h, ?_⟩, fun h => ⟨hN h, ?_⟩, ?_⟩
  · rw [hW h]; rfl
  · rw [hA h]; rfl
  · rw [hN h]
  · intro r hr
    by_cases c1 : req = E.kWriteTo ∨ req = E.kWriteInplace
    · rw [hW c1] at hr
      left
      simpa [recordReqType] using hr
    · by_cases c2 : req = E.kAddTo
      · rw [hA c2] at hr
        right
        simpa [recordReqType] using hr
      · have c3 : req = E.kNullOp ∨ E.Unrecognized req := by
          by_cases c4 : req = E.kNullOp
          · exact Or.inl c4
          · exact Or.inr ⟨c4, fun e => c1 (Or.inl e), fun e => c1 (Or.inr e), c2⟩
        rw [hN c3] at hr
        simp at hr

/-- C7 with the sample enumerators at `req = kWriteInplace`. -/
theorem MXNET_ASSIGN_REQ_SWITCH_dispatch_witness :
    sampleOpReqType.Distinct ∧
      MXNET_ASSIGN_REQ_SWITCH sampleOpReqType 2 recordReqType [] = [sampleOpReqType.kWriteTo] :=
  ⟨by decide,
    ((MXNET_ASSIGN_REQ_SWITCH_dispatch sampleOpReqType (by decide) 2).1 (by decide)).2⟩

/-- C8: for every rank, every shape whose dimensions are all at least 2 and every `int` `i`
with `0 ≤ i < product(shape)`, `unravel(i, shape)` returns a coordinate and `ravel` of that
coordinate is `i`. -/
theorem ravel_unravel_roundtrip (shape : List Int) (i : Int) (hs : ∀ d ∈ shape, 2 ≤ d)
    (h0 : 0 ≤ i) (hi : i < shape.prod) (hmax : i ≤ INT_MAX) :
    ∃ coord, unravel i shape = some coord ∧ ravel coord shape = i := by
  unfold INT_MAX at hmax
  obtain ⟨d, hd1, hd2, hd3⟩ := unravel_loop_ravel_rev shape.reverse i
    (fun x hx => by have := hs x (List.mem_reverse.1 hx); omega) h0
    (by rw [List.prod_reverse]; exact hi) (by omega)
  refine ⟨d.reverse, by simp [unravel, hd1], ?_⟩
  rw [ravel_eq_ravel_rev _ _ (by simp [hd2]), List.reverse_reverse]
  exact hd3

/-- C8 at shape `[2, 3, 4]` and index `17`. -/
theorem ravel_unravel_roundtrip_witness :
    ∃ coord, unravel 17 [2, 3, 4] = some coord ∧ ravel coord [2, 3, 4] = 17 :=
  ravel_unravel_roundtrip [2, 3, 4] 17 (by decide) (by decide) (by decide) (by decide)

/-- C9, as stated, fails: for shape `[8, 2^30]` and the in-range coordinate `[7, 2^30 - 1]`
the linear index `2^33 - 1` does not fit the `int` `ravel` returns (it returns `-1`), and
`unravel` of it is not the coordinate. -/
theorem unravel_ravel_overflow :
    InShape [7, 1073741823] [8, 1073741824] ∧
      ravel [7, 1073741823] [8, 1073741824] = -1 ∧
      unravel (ravel [7, 1073741823] [8, 1073741824]) [8, 1073741824] ≠
        some [7, 1073741823] := by
  decide

/-- C9, amended: for every rank, every shape whose product is at most `INT_MAX + 1` and
every coordinate of that rank with `0 ≤ coord[i] < shape[i]` for all `i` (so all
dimensions are at least 1), `unravel(ravel(coord, shape), shape)` is `coord`. -/
theorem unravel_ravel_roundtrip (coord shape : List Int) (h : InShape coord shape)
    (hp : shape.prod ≤ INT_MAX + 1) :
    unravel (ravel coord shape) shape = some coord := by
  unfold INT_MAX at hp
  rw [ravel_eq_ravel_rev _ _ h.1]
  unfold unravel
  rw [unravel_loop_of_ravel_rev _ _ (InShape_reverse h) (by rw [List.prod_reverse]; omega)]
  simp

/-- C9, amended, at shape `[2, 3, 4]` and coordinate `[1, 2, 3]`. -/
theorem unravel_ravel_roundtrip_witness :
    unravel (ravel [1, 2, 3] [2, 3, 4]) [2, 3, 4] = some [1, 2, 3] :=
  unravel_ravel_roundtrip [1, 2, 3] [2, 3, 4] (by decide) (by decide)

/-- C10: for every shape and every coordinate, so for every non-negative one, `ravel` gives the same
result as on the coordinate whose components that are not below their shape entry are
replaced by `0`; for shape `[1, 4]`, coordinate `[3, 2]` gives what `[0, 2]` gives. -/
theorem ravel_broadcast_guard (coord shape : List Int) :
    ravel coord shape = ravel (collapseCoord coord shape) shape ∧
      collapseCoord [3, 2] [1, 4] = [0, 2] ∧
      ravel [3, 2] [1, 4] = ravel [0, 2] [1, 4] := by
  refine ⟨?_, by decide, by decide⟩
  unfold ravel
  exact (ravel_collapseCoord_from coord shape 0).symm

/-- C11: for every rank, every index `idx`, every shape and every stride vector of that
rank, `unravel_dot(idx, shape, stride)` is `dot(unravel(idx, shape), stride)`, and one
fails (division by a zero dimension) exactly when the other does; in particular so for
`stride = calc_stride(shape)`, whatever the width of `index_t`. -/
theorem unravel_dot_eq_dot_unravel (idx : Int) (shape stride : List Int)
    (h : shape.length = stride.length) :
    unravel_dot idx shape stride = (unravel idx shape).map (fun c => dot c stride) ∧
      ∀ w : Int → Int, unravel_dot idx shape (calc_stride w shape) =
        (unravel idx shape).map (fun c => dot c (calc_stride w shape)) :=
  ⟨unravel_dot_eq idx shape stride h,
    fun w => unravel_dot_eq idx shape _ (calc_stride_length w shape).symm⟩

/-- C11 at index `17`, shape `[2, 3, 4]` and stride `[12, 4, 1]`. -/
theorem unravel_dot_eq_dot_unravel_witness :
    unravel_dot 17 [2, 3, 4] [12, 4, 1] = (unravel 17 [2, 3, 4]).map (fun c => dot c [12, 4, 1]) ∧
      ∀ w : Int → Int, unravel_dot 17 [2, 3, 4] (calc_stride w [2, 3, 4]) =
        (unravel 17 [2, 3, 4]).map (fun c => dot c (calc_stride w [2, 3, 4])) :=
  unravel_dot_eq_dot_unravel 17 [2, 3, 4] [12, 4, 1] (by decide)

/-- C12: for every rank and every shape none of whose trailing products overflows the
`index_t`, `calc_stride(shape)[i]` is the product of `shape[j]` over `j > i` when
`shape[i] > 1` and `0` when `shape[i] ≤ 1`; `calc_stride([2,3,4]) = [12,4,1]` and
`calc_stride([1,3,4]) = [0,4,1]`. -/
theorem calc_stride_spec (w : Int → Int) (shape : List Int)
    (hno : ∀ i : Nat, i ≤ shape.length → w (shape.drop i).prod = (shape.drop i).prod) :
    (calc_stride w shape).length = shape.length ∧
      (∀ (i : Nat) (sh : Int), shape[i]? = some sh →
        (calc_stride w shape)[i]? = some (if sh > 1 then (shape.drop (i + 1)).prod else 0)) ∧
      calc_stride wrapUInt32 [2, 3, 4] = [12, 4, 1] ∧
      calc_stride wrapUInt32 [1, 3, 4] = [0, 4, 1] := by
  refine ⟨calc_stride_length w shape, ?_, by decide, by decide⟩
  intro i sh h
  rw [calc_stride_eq_strideRule w shape hno]
  exact strideRule_getElem? shape i sh h

/-- C12 at shape `[2, 3, 4]` with an unsigned 32-bit `index_t`. -/
theorem calc_stride_spec_witness :
    (calc_stride wrapUInt32 [2, 3, 4]).length = [2, 3, 4].length ∧
      (∀ (i : Nat) (sh : Int), [2, 3, 4][i]? = some sh →
        (calc_stride wrapUInt32 [2, 3, 4])[i]? =
          some (if sh > 1 then (([2, 3, 4] : List Int).drop (i + 1)).prod else 0)) ∧
      calc_stride wrapUInt32 [2, 3, 4] = [12, 4, 1] ∧
      calc_stride wrapUInt32 [1, 3, 4] = [0, 4, 1] :=
  calc_stride_spec wrapUInt32 [2, 3, 4] (by decide)

/-- C13: for every shape, every dimension `k` with `shape[k] == 1` and every two
coordinates that agree on all components except possibly `k`, `dot` with
`calc_stride(shape)` gives the same offset, whatever the width of `index_t`. -/
theorem dot_calc_stride_broadcast (w : Int → Int) (shape c1 c2 : List Int) (k : Nat)
    (hk : shape[k]? = some 1) (hlen : c1.length = c2.length)
    (hagree : ∀ i : Nat, i < c1.length → i ≠ k → c1[i]? = c2[i]?) :
    dot c1 (calc_stride w shape) = dot c2 (calc_stride w shape) := by
  rw [dot_eq_wrap, dot_eq_wrap, weightedSum_eq_zipWith, weightedSum_eq_zipWith]
  congr 2
  apply List.ext_getElem?
  intro i
  rw [List.getElem?_zipWith, List.getElem?_zipWith]
  by_cases hik : i = k
  · subst hik
    rw [calc_stride_zero w shape i 1 hk (le_refl 1)]
    by_cases hi : i < c1.length
    · have hi2 : i < c2.length := hlen ▸ hi
      have e1 : c1[i]? = some c1[i] := List.getElem?_eq_getElem hi
      have e2 : c2[i]? = some c2[i] := List.getElem?_eq_getElem hi2
      rw [e1, e2]
      simp
    · have e1 : c1[i]? = none := List.getElem?_eq_none (by omega)
      have e2 : c2[i]? = none := List.getElem?_eq_none (by omega)
      rw [e1, e2]
  · by_cases hi : i < c1.length
    · rw [hagree i hi hik]
    · have e1 : c1[i]? = none := List.getElem?_eq_none (by omega)
      have e2 : c2[i]? = none := List.getElem?_eq_none (by omega)
      rw [e1, e2]

/-- C13 at shape `[1, 4]`, dimension `0`, coordinates `[3, 2]` and `[0, 2]`. -/
theorem dot_calc_stride_broadcast_witness :
    dot [3, 2] (calc_stride wrapUInt32 [1, 4]) = dot [0, 2] (calc_stride wrapUInt32 [1, 4]) :=
  dot_calc_stride_broadcast wrapUInt32 [1, 4] [3, 2] [0, 2] 0 (by decide) (by decide)
    (by decide)

/-- C14, as stated, fails: for shape `[65536, 65536]` and the non-negative coordinate
`[32768, 0]` the linear index `2^31` does not fit the `int` that `ravel` returns, and the
result is negative. -/
theorem ravel_negative_on_overflow :
    ravel [32768, 0] [65536, 65536] = -2147483648 ∧
      ¬ (0 ≤ ravel [32768, 0] [65536, 65536] ∧
        ravel [32768, 0] [65536, 65536] < ([65536, 65536] : List Int).prod) := by
  decide

/-- C14, amended: for every rank, every shape with all dimensions at least 1 whose product
is at most `INT_MAX + 1` and every coordinate of that rank with non-negative components
(in range or not), `0 ≤ ravel(coord, shape) < product(shape)`. -/
theorem ravel_in_range (coord shape : List Int) (hlen : coord.length = shape.length)
    (hs : ∀ d ∈ shape, 1 ≤ d) (hc : ∀ x ∈ coord, 0 ≤ x) (hp : shape.prod ≤ INT_MAX + 1) :
    0 ≤ ravel coord shape ∧ ravel coord shape < shape.prod := by
  have hin := InShape_collapseCoord coord shape hlen hs hc
  have hcol : ravel coord shape = ravel (collapseCoord coord shape) shape := by
    unfold ravel
    exact (ravel_collapseCoord_from coord shape 0).symm
  rw [hcol, ravel_eq_weightedSum_in_range _ _ hin hp]
  exact weightedSum_bounds _ _ hin

/-- C14, amended, at shape `[1, 4]` and the out-of-range coordinate `[3, 2]`. -/
theorem ravel_in_range_witness :
    0 ≤ ravel [3, 2] [1, 4] ∧ ravel [3, 2] [1, 4] < ([1, 4] : List Int).prod :=
  ravel_in_range [3, 2] [1, 4] (by decide) (by decide) (by decide) (by decide)

/-- C15, as stated, fails: for the shape `[2, 0]` with a zero-sized dimension, `unravel` and
`unravel_dot` divide by zero and return no result. -/
theorem unravel_zero_dimension_fails :
    unravel 0 [2, 0] = none ∧ unravel_dot 0 [2, 0] [0, 0] = none ∧
      ¬ ((∃ c, unravel 0 [2, 0] = some c) ∧ (∃ r, unravel_dot 0 [2, 0] [0, 0] = some r)) := by
  refine ⟨by decide, by decide, ?_⟩
  rintro ⟨⟨c, hc⟩, _⟩
  have h : unravel 0 [2, 0] = none := by decide
  rw [h] at hc
  exact Option.noConfusion hc

/-- C15, amended: for every rank, every index and every shape and stride of that rank,
`ravel`, `dot` and `calc_stride` return a result, and `unravel` and `unravel_dot` return
a result exactly when no shape entry is zero. -/
theorem coordinate_helpers_total (idx : Int) (coord shape stride : List Int) (w : Int → Int)
    (h : shape.length = stride.length) :
    (∃ r, ravel coord shape = r) ∧ (∃ r, dot coord stride = r) ∧
      (∃ st, calc_stride w shape = st ∧ st.length = shape.length) ∧
      ((∃ c, unravel idx shape = some c) ↔ (0 : Int) ∉ shape) ∧
      ((∃ r, unravel_dot idx shape stride = some r) ↔ (0 : Int) ∉ shape) := by
  refine ⟨⟨_, rfl⟩, ⟨_, rfl⟩, ⟨_, rfl, calc_stride_length w shape⟩,
    unravel_isSome_iff idx shape, ?_⟩
  rw [unravel_dot_eq idx shape stride h, ← unravel_isSome_iff idx shape]
  simp only [Option.map_eq_some']
  constructor
  · rintro ⟨r, c, hc, _⟩
    exact ⟨c, hc⟩
  · rintro ⟨c, hc⟩
    exact ⟨_, c, hc, rfl⟩

/-- C15, amended, at index `17`, shape `[2, 3, 4]` and stride `[12, 4, 1]`. -/
theorem coordinate_helpers_total_witness :
    (∃ r, ravel [1, 1, 1] [2, 3, 4] = r) ∧ (∃ r, dot [1, 1, 1] [12, 4, 1] = r) ∧
      (∃ st, calc_stride wrapUInt32 [2, 3, 4] = st ∧ st.length = [2, 3, 4].length) ∧
      ((∃ c, unravel 17 [2, 3, 4] = some c) ↔ (0 : Int) ∉ [2, 3, 4]) ∧
      ((∃ r, unravel_dot 17 [2, 3, 4] [12, 4, 1] = some r) ↔ (0 : Int) ∉ [2, 3, 4]) :=
  coordinate_helpers_total 17 [1, 1, 1] [2, 3, 4] [12, 4, 1] wrapUInt32 (by decide)

/-- C17, as stated, fails: for shape `[4, 2^30]` and the in-range coordinate `[3, 5]` the
weighted sum `3 * 2^30 + 5` does not fit the `int` that `ravel` returns. -/
theorem ravel_weighted_sum_overflow :
    InShape [3, 5] [4, 1073741824] ∧
      weightedSum [3, 5] (rowMajorWeights [4, 1073741824]) = 3221225477 ∧
      ravel [3, 5] [4, 1073741824] ≠ weightedSum [3, 5] (rowMajorWeights [4, 1073741824]) := by
  decide

/-- C17, amended: for every rank, every shape and every coordinate with
`0 ≤ coord[i] < shape[i]` for all `i`, `ravel(coord, shape)` is the sum over `i` of
`coord[i]` times the product of `shape[j]` over `j > i`, reduced to a 32-bit `int`; it
is that sum itself whenever the product of the shape is at most `INT_MAX + 1`. -/
theorem ravel_weighted_sum (coord shape : List Int) (h : InShape coord shape) :
    ravel coord shape = wrapInt32 (weightedSum coord (rowMajorWeights shape)) ∧
      (shape.prod ≤ INT_MAX + 1 →
        ravel coord shape = weightedSum coord (rowMajorWeights shape)) := by
  refine ⟨?_, ravel_eq_weightedSum_in_range coord shape h⟩
  rw [ravel_eq_wrap_weightedSum coord shape h.1, collapseCoord_of_InShape coord shape h]

/-- C17, amended, at shape `[2, 3, 4]` and coordinate `[1, 2, 3]`. -/
theorem ravel_weighted_sum_witness :
    ravel [1, 2, 3] [2, 3, 4] = wrapInt32 (weightedSum [1, 2, 3] (rowMajorWeights [2, 3, 4])) ∧
      (([2, 3, 4] : List Int).prod ≤ INT_MAX + 1 →
        ravel [1, 2, 3] [2, 3, 4] = weightedSum [1, 2, 3] (rowMajorWeights [2, 3, 4])) :=
  ravel_weighted_sum [1, 2, 3] [2, 3, 4] (by decide)

/-- C18: for every rank, every shape with all dimensions at least 1 and every `int`
`idx ≥ 0` (also at or above the product of the shape), `unravel(idx, shape)` returns
the mixed-radix digits of `idx`, most significant dimension first; every component
satisfies `0 ≤ unravel(idx, shape)[i] < shape[i]`, and the digits stand for `idx` modulo
the product of the shape (the excess above it is discarded). -/
theorem unravel_valid_coordinate (idx : Int) (shape : List Int) (hs : ∀ d ∈ shape, 1 ≤ d)
    (h0 : 0 ≤ idx) (hmax : idx ≤ INT_MAX) :
    unravel idx shape = some (mixedRadixDigits idx shape) ∧
      InShape (mixedRadixDigits idx shape) shape ∧
      weightedSum (mixedRadixDigits idx shape) (rowMajorWeights shape) = idx % shape.prod := by
  unfold INT_MAX at hmax
  refine ⟨?_, InShape_mixedRadixDigits idx shape hs,
    weightedSum_mixedRadixDigits idx h0 shape hs⟩
  unfold unravel
  rw [unravel_loop_digits idx h0 (by omega) shape hs]
  simp

/-- C18 at shape `[2, 3, 4]` and index `100`, which is above the product `24`. -/
theorem unravel_valid_coordinate_witness :
    unravel 100 [2, 3, 4] = some (mixedRadixDigits 100 [2, 3, 4]) ∧
      InShape (mixedRadixDigits 100 [2, 3, 4]) [2, 3, 4] ∧
      weightedSum (mixedRadixDigits 100 [2, 3, 4]) (rowMajorWeights [2, 3, 4]) =
        100 % ([2, 3, 4] : List Int).prod :=
  unravel_valid_coordinate 100 [2, 3, 4] (by decide) (by decide) (by decide)

/-- C19: for every rank, every shape with all dimensions at least 1 and every non-negative
coordinate such that for each `i` either `coord[i] < shape[i]` or `shape[i] == 1`,
`ravel(coord, shape)` is `dot(coord, calc_stride(shape))`, for every `index_t` that
keeps values modulo `2^32`. -/
theorem ravel_eq_dot_calc_stride (w : Int → Int) (hw : ∀ x, wrapInt32 (w x) = wrapInt32 x)
    (coord shape : List Int) (h : BroadcastCoord coord shape) :
    ravel coord shape = dot coord (calc_stride w shape) := by
  rw [ravel_eq_wrap_weightedSum coord shape h.1, dot_eq_wrap, wrapInt32_congr,
    ← weightedSum_strideRule coord shape h]
  exact (weightedSum_modEq (calc_stride_modEq w hw shape) coord).symm

/-- C19 at shape `[1, 4]` and coordinate `[3, 2]` with an unsigned 32-bit `index_t`. -/
theorem ravel_eq_dot_calc_stride_witness :
    ravel [3, 2] [1, 4] = dot [3, 2] (calc_stride wrapUInt32 [1, 4]) :=
  ravel_eq_dot_calc_stride wrapUInt32 wrapInt32_wrapUInt32 [3, 2] [1, 4] (by decide)

/-- C20: for every request value `req`, starting value `v0` and computed value `c`,
`KERNEL_ASSIGN(out, ReqType, c)` executed as the body of
`MXNET_ASSIGN_REQ_SWITCH(req, ReqType, ...)` leaves `out` with the value that
`KERNEL_ASSIGN(out, req, c)` leaves. -/
theorem MXNET_ASSIGN_REQ_SWITCH_KERNEL_ASSIGN {α : Type} [Add α] (E : OpReqType)
    (hE : E.Distinct) (req : Int) (v0 c : α) :
    MXNET_ASSIGN_REQ_SWITCH E req (fun ReqType out => KERNEL_ASSIGN E out ReqType c) v0 =
      KERNEL_ASSIGN E v0 req c := by
  simp only [OpReqType.Distinct, List.nodup_cons, List.mem_cons, List.mem_singleton,
    List.not_mem_nil, not_or, List.nodup_nil, or_false, not_false_eq_true, and_true] at hE
  obtain ⟨⟨h12, h13, h14⟩, ⟨h23, h24⟩, h34⟩ := hE
  have hW : E.kWriteTo ≠ E.kNullOp := fun e => h12 e.symm
  have hA1 : E.kAddTo ≠ E.kNullOp := fun e => h14 e.symm
  have hA2 : E.kAddTo ≠ E.kWriteTo := fun e => h24 e.symm
  have hA3 : E.kAddTo ≠ E.kWriteInplace := fun e => h34 e.symm
  unfold MXNET_ASSIGN_REQ_SWITCH
  by_cases c1 : req = E.kNullOp
  · simp [KERNEL_ASSIGN, c1]
  · by_cases c2 : req = E.kWriteInplace ∨ req = E.kWriteTo
    · have c2b : req = E.kWriteTo ∨ req = E.kWriteInplace := c2.symm
      simp [KERNEL_ASSIGN, c1, c2, c2b, hW]
    · have c2b : ¬ (req = E.kWriteTo ∨ req = E.kWriteInplace) := fun e => c2 e.symm
      by_cases c3 : req = E.kAddTo
      · subst c3
        simp [KERNEL_ASSIGN, hA1, hA2, hA3]
      · simp only [KERNEL_ASSIGN, c1, c2, c2b, c3, if_false]

/-- C20 with the sample enumerators on integers: `req = kWriteInplace`, `v0 = 10`, `c = 5`. -/
theorem MXNET_ASSIGN_REQ_SWITCH_KERNEL_ASSIGN_witness :
    MXNET_ASSIGN_REQ_SWITCH sampleOpReqType 2
        (fun ReqType out => KERNEL_ASSIGN sampleOpReqType out ReqType (5 : Int)) (10 : Int) =
      KERNEL_ASSIGN sampleOpReqType (10 : Int) 2 5 :=
  MXNET_ASSIGN_REQ_SWITCH_KERNEL_ASSIGN sampleOpReqType (by decide) 2 10 5

end mxnet_op
